import Mathlib

/-!
# Measurement pipeline of `design_oscilloscope.c`

A shallow embedding of the acquisition-and-measurement core of the digital
storage oscilloscope firmware (`src/design_oscilloscope.c`) together with the
properties established about it.

Modelling conventions.

* A C `int` is a Lean `Int`.  The analog reader delivers samples in `0..255`;
  with such samples every intermediate value of the functions below stays far
  inside the range of a 16-bit `int`, so no wrap-around is modelled.
* An `int` array is a function `Nat → Int` giving the word stored at each
  index.  `buffer_input_data` is declared with 192 entries and `pixel_loc` with
  96; the value of the function at the declared length is whatever word lies
  directly behind the array, which the source does read (index `i+1` with
  `i = 191`, respectively `x+1` with `x = 95`).
* The two markers `start_wave_idx`, `end_wave_idx` are `Nat`: they hold `0` at
  power-on and are afterwards only assigned values of non-negative loop
  counters.  Their difference is taken in `Int`, as in the source.
* `float` quantities (`V_pp`, `freq`, `ms_per_div`) are rationals.  The values
  `ms_per_div` takes are exact in binary floating point.  For `V_pp` and `freq`
  the rational is the value of the source expression before rounding; the
  `float` the source stores is that value rounded to nearest, which is zero
  exactly when the rational is and has the same sign.
-/

set_option maxRecDepth 100000

namespace Oscilloscope

/-- The global variables of `design_oscilloscope.c`. -/
structure DSO where
  buffer_input_data : Nat → Int
  V_max : Int
  V_min : Int
  V_mid : Int
  V_pp : ℚ
  start_wave_idx : Nat
  end_wave_idx : Nat
  ms_per_div : ℚ
  volts_per_div : ℚ
  freq : ℚ
  pixel_loc : Nat → Int
  hold_flag : Int
  vert_disp : Int

/-- The globals as the C start-up code leaves them: the explicit initialisers
of the source, zero everywhere else. -/
def power_on : DSO where
  buffer_input_data := fun _ => 0
  V_max := 0
  V_min := 0
  V_mid := 0
  V_pp := 0
  start_wave_idx := 0
  end_wave_idx := 0
  ms_per_div := 1 / 2
  volts_per_div := 5 / 8
  freq := 0
  pixel_loc := fun _ => 0
  hold_flag := 0
  vert_disp := 0

/-! ## `calc_vpp_vmid` -/

/-- Body of the `for` loop of `calc_vpp_vmid` at index `x`; the accumulator is
the pair `(V_max, V_min)`.
```
if(buffer_input_data[x] <= V_min) V_min = buffer_input_data[x];
else if(buffer_input_data[x] >= V_max) V_max = buffer_input_data[x];
``` -/
def vpp_step (buf : Nat → Int) (acc : Int × Int) (x : Nat) : Int × Int :=
  if buf x ≤ acc.2 then (acc.1, buf x)
  else if buf x ≥ acc.1 then (buf x, acc.2)
  else acc

/-- The loop `for(int x=0; x<n; x++)` of `calc_vpp_vmid`, started from the
seeds `V_max = 0, V_min = 0`.  The source runs it with `n = 192`. -/
def vpp_scan (buf : Nat → Int) (n : Nat) : Int × Int :=
  (List.range n).foldl (vpp_step buf) (0, 0)

/-- Embedding of `calc_vpp_vmid`: `V_mid` uses C integer division (truncating
toward zero), `V_pp` is `(V_max - V_min) * 5.0 / 255.0` before it is rounded to
`float`. -/
def calc_vpp_vmid (st : DSO) : DSO :=
  let r := vpp_scan st.buffer_input_data 192
  { st with
    V_max := r.1
    V_min := r.2
    V_mid := Int.tdiv (r.1 + r.2) 2
    V_pp := ((r.1 - r.2 : Int) : ℚ) * 5 / 255 }

/-! ## `calc_start_end_wave_idx` and `calc_frequency` -/

/-- The test `buffer_input_data[i] < V_mid && buffer_input_data[i+1] >= V_mid`
of both scans. -/
def rising (buf : Nat → Int) (vmid : Int) (i : Nat) : Bool :=
  decide (buf i < vmid) && decide (buf (i + 1) ≥ vmid)

/-- A scan loop `for(i = i0; ...; i++) if (rising at i) { ...; break; }` that
has `n` iterations left: the index at which it breaks, or `none` when it runs
to its bound without breaking. -/
def scan (buf : Nat → Int) (vmid : Int) : Nat → Nat → Option Nat
  | 0, _ => none
  | n + 1, i => if rising buf vmid i then some i else scan buf vmid n (i + 1)

/-- First loop of `calc_start_end_wave_idx`: `for(int i=0;i<192;i++)`,
storing `i+1` in `start_wave_idx` at the break. -/
def first_scan (st : DSO) : DSO :=
  match scan st.buffer_input_data st.V_mid 192 0 with
  | some i => { st with start_wave_idx := i + 1 }
  | none => st

/-- Second loop of `calc_start_end_wave_idx`:
`for(int i=start_wave_idx+1;i<192;i++)`, storing `i` in `end_wave_idx` at the
break. -/
def second_scan (st : DSO) : DSO :=
  match scan st.buffer_input_data st.V_mid
      (192 - (st.start_wave_idx + 1)) (st.start_wave_idx + 1) with
  | some i => { st with end_wave_idx := i }
  | none => st

/-- Embedding of `calc_start_end_wave_idx`. -/
def calc_start_end_wave_idx (st : DSO) : DSO :=
  second_scan (first_scan st)

/-- Embedding of `calc_frequency`:
`float t = end_wave_idx-start_wave_idx; if(t>0) freq=8/(t*(ms_per_div)); else freq=0;` -/
def calc_frequency (st : DSO) : DSO :=
  let t : ℚ := (((st.end_wave_idx : Int) - (st.start_wave_idx : Int) : Int) : ℚ)
  if t > 0 then { st with freq := 8 / (t * st.ms_per_div) }
  else { st with freq := 0 }

/-- Embedding of `measure_parameters`. -/
def measure_parameters (st : DSO) : DSO :=
  calc_frequency (calc_start_end_wave_idx (calc_vpp_vmid st))

/-! ## `translate_wave_to_pixels` -/

/-- Body of the loop of `translate_wave_to_pixels` at index `i`:
`pixel_loc[i] = (32+(V_mid-buffer_input_data[i])/4);` -/
def pixel_step (buf : Nat → Int) (vmid : Int) (pl : Nat → Int) (i : Nat) : Nat → Int :=
  fun k => if k = i then 32 + Int.tdiv (vmid - buf i) 4 else pl k

/-- The loop `for(int i=0; i<n; i++)` of `translate_wave_to_pixels`; the source
runs it with `n = 96`. -/
def pixel_scan (buf : Nat → Int) (vmid : Int) (pl : Nat → Int) (n : Nat) : Nat → Int :=
  (List.range n).foldl (pixel_step buf vmid) pl

/-- Embedding of `translate_wave_to_pixels`. -/
def translate_wave_to_pixels (st : DSO) : DSO :=
  { st with pixel_loc := pixel_scan st.buffer_input_data st.V_mid st.pixel_loc 96 }

/-! ## `sample_input_wave` -/

/-- Embedding of `sample_input_wave`: entry `i` of the buffer receives the
result `adc i` of the `i`-th call of `convert_analog_channel_data`, for
`i = 0..191`.  The pacing delay has no effect on the globals. -/
def sample_input_wave (adc : Nat → Int) (st : DSO) : DSO :=
  { st with
    buffer_input_data := fun k => if k < 192 then adc k else st.buffer_input_data k }

/-! ## Switch interrupt handlers -/

/-- Embedding of `ISR(div_add_sw_pin_int_vect)`:
`ms_per_div = ms_per_div + 0.5; if(ms_per_div > 2.0) ms_per_div=0.5;` -/
def div_add_sw_pin_int_vect (st : DSO) : DSO :=
  let st1 := { st with ms_per_div := st.ms_per_div + 1 / 2 }
  if st1.ms_per_div > 2 then { st1 with ms_per_div := 1 / 2 } else st1

/-- Embedding of `ISR(div_sub_sw_pin_int_vect)`:
`ms_per_div -= 0.5; if(ms_per_div <= 0) ms_per_div = 0.5;` -/
def div_sub_sw_pin_int_vect (st : DSO) : DSO :=
  let st1 := { st with ms_per_div := st.ms_per_div - 1 / 2 }
  if st1.ms_per_div ≤ 0 then { st1 with ms_per_div := 1 / 2 } else st1

/-- Embedding of `ISR(up_sw_pin_int_vect)`:
`vert_disp--; if(vert_disp < -31) vert_disp =0;` -/
def up_sw_pin_int_vect (st : DSO) : DSO :=
  let st1 := { st with vert_disp := st.vert_disp - 1 }
  if st1.vert_disp < -31 then { st1 with vert_disp := 0 } else st1

/-- Embedding of `ISR(down_sw_pin_int_vect)`:
`vert_disp++; if(vert_disp > 31) vert_disp =0;` -/
def down_sw_pin_int_vect (st : DSO) : DSO :=
  let st1 := { st with vert_disp := st.vert_disp + 1 }
  if st1.vert_disp > 31 then { st1 with vert_disp := 0 } else st1

/-- The four switch interrupts that change the scale and offset state. -/
inductive SwitchEvent where
  | div_add
  | div_sub
  | up
  | down
  deriving DecidableEq

/-- The handler the hardware runs for a switch interrupt. -/
def handle_event (st : DSO) : SwitchEvent → DSO
  | SwitchEvent.div_add => div_add_sw_pin_int_vect st
  | SwitchEvent.div_sub => div_sub_sw_pin_int_vect st
  | SwitchEvent.up => up_sw_pin_int_vect st
  | SwitchEvent.down => down_sw_pin_int_vect st

/-- The state after a finite sequence of switch interrupts, handled in order. -/
def run_events (st : DSO) (evs : List SwitchEvent) : DSO :=
  evs.foldl handle_event st

/-- The delay lookup of `sample_input_wave`, in microseconds; `none` when no
branch matches and no delay is made.
```
if(ms_per_div == 0.5) _delay_us(60);
else if(ms_per_div == 1.0) _delay_us(110);
else if(ms_per_div == 1.5) _delay_us(160);
else if(ms_per_div == 2) _delay_us(210);
``` -/
def sample_delay_us (ms_per_div : ℚ) : Option Nat :=
  if ms_per_div = 1 / 2 then some 60
  else if ms_per_div = 1 then some 110
  else if ms_per_div = 3 / 2 then some 160
  else if ms_per_div = 2 then some 210
  else none

/-- The wait-loop condition of `ISR(hold_sw_pin_int_vect)` as C parses it.
In `div_hold_switch_pin_reg & (1 << hold_sw_pin) == 0` the operator `==` binds
tighter than `&`, so the value is `reg & ((1 << pin) == 0)`, where the
comparison yields the `int` 1 or 0; the loop continues while it is non-zero.
`hold_sw_pin` is a macro of a header outside the sources and is a parameter. -/
def hold_wait_condition (reg pin : Nat) : Bool :=
  (reg &&& (if (1 <<< pin) = 0 then 1 else 0)) != 0

/-- The condition the comment of the handler describes, "wait till the switch
being released": the switch bit of the register reads 0. -/
def hold_switch_pressed (reg pin : Nat) : Bool :=
  (reg &&& (1 <<< pin)) == 0

/-- The loop `while (cond);` of `ISR(hold_sw_pin_int_vect)`: `reg k` is the
value the pin register has at the `k`-th evaluation of the condition.  The
result is the index of the evaluation at which the loop is left, `none` when
the fuel runs out first. -/
def hold_wait (pin : Nat) (reg : Nat → Nat) : Nat → Nat → Option Nat
  | 0, _ => none
  | fuel + 1, k =>
    if hold_wait_condition (reg k) pin then hold_wait pin reg fuel (k + 1) else some k

/-- Embedding of `ISR(hold_sw_pin_int_vect)`:
`hold_flag = 1; while (...); hold_flag = 0;`.  The result is the state at the
return of the handler together with the number of the evaluation at which the
wait loop was left. -/
def hold_sw_pin_int_vect (pin : Nat) (reg : Nat → Nat) (fuel : Nat) (st : DSO) :
    Option (DSO × Nat) :=
  let st1 := { st with hold_flag := 1 }
  match hold_wait pin reg fuel 0 with
  | some k => some ({ st1 with hold_flag := 0 }, k)
  | none => none

/-! ## Memory accesses of the scans and of `draw_waveform` -/

/-- Values of the loop counter `i` for which the body of a scan loop with `n`
iterations left is executed. -/
def scan_visits (buf : Nat → Int) (vmid : Int) : Nat → Nat → List Nat
  | 0, _ => []
  | n + 1, i => i :: (if rising buf vmid i then [] else scan_visits buf vmid n (i + 1))

/-- Indices of `buffer_input_data` read by a scan loop with `n` iterations
left, in order.  The test `buffer_input_data[i]<V_mid&&buffer_input_data[i+1]>=V_mid`
reads index `i`, and index `i+1` only when the first comparison holds. -/
def scan_reads (buf : Nat → Int) (vmid : Int) : Nat → Nat → List Nat
  | 0, _ => []
  | n + 1, i =>
    if buf i < vmid then
      (if buf (i + 1) ≥ vmid then [i, i + 1]
       else i :: (i + 1) :: scan_reads buf vmid n (i + 1))
    else i :: scan_reads buf vmid n (i + 1)

/-- Loop counter values visited by the two scans of `calc_start_end_wave_idx`. -/
def calc_start_end_wave_idx_visits (st : DSO) : List Nat :=
  scan_visits st.buffer_input_data st.V_mid 192 0 ++
  scan_visits st.buffer_input_data st.V_mid
    (192 - ((first_scan st).start_wave_idx + 1)) ((first_scan st).start_wave_idx + 1)

/-- Indices of `buffer_input_data` read by `calc_start_end_wave_idx`. -/
def calc_start_end_wave_idx_reads (st : DSO) : List Nat :=
  scan_reads st.buffer_input_data st.V_mid 192 0 ++
  scan_reads st.buffer_input_data st.V_mid
    (192 - ((first_scan st).start_wave_idx + 1)) ((first_scan st).start_wave_idx + 1)

/-- Embedding of `draw_waveform`: the arguments `(x1, y1, x2, y2)` of the 96
calls `drawLine(x,(vert_disp+pixel_loc[x]),x,(vert_disp+pixel_loc[x+1]))`,
`x = 0..95`, in order. -/
def draw_waveform (st : DSO) : List (Int × Int × Int × Int) :=
  (List.range 96).map (fun (x : Nat) =>
    (Int.ofNat x, st.vert_disp + st.pixel_loc x, Int.ofNat x,
      st.vert_disp + st.pixel_loc (x + 1)))

/-- Indices of `pixel_loc` read by `draw_waveform`: `x` and `x+1` in each
iteration `x = 0..95`. -/
def draw_waveform_reads : List Nat :=
  (List.range 96).foldl (fun acc x => acc ++ [x, x + 1]) []

/-! ## Reference definitions taken from the specification -/

/-- The specification's reading of the amplitude scan: a running maximum and a
running minimum, both seeded at 0 and updated independently of one another,
over the first `n` samples.  The pair is `(max, min)`. -/
def extremes_spec (buf : Nat → Int) (n : Nat) : Int × Int :=
  (List.range n).foldl (fun acc x => (max acc.1 (buf x), min acc.2 (buf x))) (0, 0)

/-! ## Test signals -/

/-- A sweep whose 192 samples all equal `c`. -/
def flat_buffer (c : Int) : Nat → Int := fun _ => c

/-- A square wave of period `P` samples: each cycle is `a` samples at level
`L` followed by `P - a` samples at level `H`; `phase` is the position inside
the cycle at which sample 0 is taken. -/
def square_wave (P a phase : Nat) (L H : Int) : Nat → Int :=
  fun k => if (k + phase) % P < a then L else H

/-- A sweep that stays at 200 and drops to 0 at its last sample. -/
def final_drop : Nat → Int := fun k => if k = 191 then 0 else 200

/-! ## Lemmas on `calc_vpp_vmid` -/

theorem vpp_scan_succ (buf : Nat → Int) (n : Nat) :
    vpp_scan buf (n + 1) = vpp_step buf (vpp_scan buf n) n := by
  simp [vpp_scan, List.range_succ, List.foldl_append]

/-- The seeds bracket zero throughout the scan, every scanned sample lies
between the running extremes, and each extreme is the seed or a scanned
sample. -/
theorem vpp_scan_spec (buf : Nat → Int) (n : Nat) :
    (vpp_scan buf n).2 ≤ 0 ∧ 0 ≤ (vpp_scan buf n).1 ∧
    (∀ x, x < n → (vpp_scan buf n).2 ≤ buf x ∧ buf x ≤ (vpp_scan buf n).1) ∧
    ((vpp_scan buf n).2 = 0 ∨ ∃ x, x < n ∧ buf x = (vpp_scan buf n).2) ∧
    ((vpp_scan buf n).1 = 0 ∨ ∃ x, x < n ∧ buf x = (vpp_scan buf n).1) := by
  induction n with
  | zero => simp [vpp_scan]
  | succ n ih =>
    obtain ⟨h1, h2, h3, h4, h5⟩ := ih
    rw [vpp_scan_succ]
    unfold vpp_step
    split_ifs with c1 c2
    · refine ⟨by simp; omega, by simpa using h2, ?_, ?_, ?_⟩
      · intro x hx
        rcases Nat.lt_succ_iff_lt_or_eq.mp hx with hlt | rfl
        · have := h3 x hlt
          simp only
          omega
        · simp only
          omega
      · right
        exact ⟨n, Nat.lt_succ_self n, rfl⟩
      · rcases h5 with h | ⟨x, hx, hb⟩
        · left; simpa using h
        · right; exact ⟨x, Nat.lt_succ_of_lt hx, by simpa using hb⟩
    · refine ⟨by simpa using h1, by simp; omega, ?_, ?_, ?_⟩
      · intro x hx
        rcases Nat.lt_succ_iff_lt_or_eq.mp hx with hlt | rfl
        · have := h3 x hlt
          simp only
          omega
        · simp only
          omega
      · rcases h4 with h | ⟨x, hx, hb⟩
        · left; simpa using h
        · right; exact ⟨x, Nat.lt_succ_of_lt hx, by simpa using hb⟩
      · right
        exact ⟨n, Nat.lt_succ_self n, rfl⟩
    · refine ⟨h1, h2, ?_, ?_, ?_⟩
      · intro x hx
        rcases Nat.lt_succ_iff_lt_or_eq.mp hx with hlt | rfl
        · exact h3 x hlt
        · omega
      · rcases h4 with h | ⟨x, hx, hb⟩
        · left; exact h
        · right; exact ⟨x, Nat.lt_succ_of_lt hx, hb⟩
      · rcases h5 with h | ⟨x, hx, hb⟩
        · left; exact h
        · right; exact ⟨x, Nat.lt_succ_of_lt hx, hb⟩

/-- C division by two of a sum lies between the summands when they bracket
zero. -/
theorem tdiv_two_between (lo hi : Int) (h1 : lo ≤ 0) (h2 : 0 ≤ hi) :
    lo ≤ Int.tdiv (hi + lo) 2 ∧ Int.tdiv (hi + lo) 2 ≤ hi := by
  rcases le_total 0 (hi + lo) with h | h
  · rw [Int.tdiv_eq_ediv h (by norm_num)]
    omega
  · have hneg : hi + lo = -(-(hi + lo)) := by ring
    rw [hneg, Int.neg_tdiv, Int.tdiv_eq_ediv (by omega) (by norm_num)]
    omega

/-- Field values of `calc_vpp_vmid`. -/
theorem calc_vpp_vmid_fields (st : DSO) :
    (calc_vpp_vmid st).V_max = (vpp_scan st.buffer_input_data 192).1 ∧
    (calc_vpp_vmid st).V_min = (vpp_scan st.buffer_input_data 192).2 ∧
    (calc_vpp_vmid st).V_mid = Int.tdiv ((vpp_scan st.buffer_input_data 192).1
        + (vpp_scan st.buffer_input_data 192).2) 2 ∧
    (calc_vpp_vmid st).V_pp = (((vpp_scan st.buffer_input_data 192).1
        - (vpp_scan st.buffer_input_data 192).2 : Int) : ℚ) * 5 / 255 ∧
    (calc_vpp_vmid st).buffer_input_data = st.buffer_input_data ∧
    (calc_vpp_vmid st).start_wave_idx = st.start_wave_idx ∧
    (calc_vpp_vmid st).end_wave_idx = st.end_wave_idx ∧
    (calc_vpp_vmid st).ms_per_div = st.ms_per_div := by
  simp only [calc_vpp_vmid]
  exact ⟨trivial, trivial, trivial, trivial, trivial, trivial, trivial, trivial⟩

/-- On a sweep whose samples all equal `c ≥ 0` the scan ends with
`V_max = c` and `V_min = 0`. -/
theorem vpp_scan_flat (buf : Nat → Int) (c : Int) (hc : 0 ≤ c)
    (hflat : ∀ k, k < 192 → buf k = c) : vpp_scan buf 192 = (c, 0) := by
  obtain ⟨h1, h2, h3, h4, h5⟩ := vpp_scan_spec buf 192
  have h0 := h3 0 (by norm_num)
  rw [hflat 0 (by norm_num)] at h0
  have hmin : (vpp_scan buf 192).2 = 0 := by
    rcases h4 with h | ⟨x, hx, hb⟩
    · exact h
    · rw [hflat x hx] at hb
      omega
  have hmax : (vpp_scan buf 192).1 = c := by
    rcases h5 with h | ⟨x, hx, hb⟩
    · omega
    · rw [hflat x hx] at hb
      omega
  exact Prod.ext hmax hmin

/-- C division of a non-negative number by two. -/
theorem tdiv_two_nonneg (c : Int) (hc : 0 ≤ c) : Int.tdiv c 2 = c / 2 :=
  Int.tdiv_eq_ediv hc (by norm_num)

/-! ## Lemmas on the crossing scans -/

theorem rising_iff (buf : Nat → Int) (vmid : Int) (i : Nat) :
    rising buf vmid i = true ↔ buf i < vmid ∧ buf (i + 1) ≥ vmid := by
  simp [rising]

/-- A scan that meets no rising crossing in its range does not break. -/
theorem scan_none (buf : Nat → Int) (vmid : Int) (n i : Nat)
    (h : ∀ j, i ≤ j → j < i + n → rising buf vmid j = false) :
    scan buf vmid n i = none := by
  induction n generalizing i with
  | zero => rfl
  | succ n ih =>
    have hi := h i (le_refl i) (by omega)
    simp only [scan, hi]
    exact ih (i + 1) (fun j h1 h2 => h j (by omega) (by omega))

/-- A scan breaks at the first rising crossing of its range. -/
theorem scan_first (buf : Nat → Int) (vmid : Int) (n i k : Nat)
    (hik : i ≤ k) (hkn : k < i + n) (hk : rising buf vmid k = true)
    (hbefore : ∀ j, i ≤ j → j < k → rising buf vmid j = false) :
    scan buf vmid n i = some k := by
  induction n generalizing i with
  | zero => omega
  | succ n ih =>
    rcases Nat.eq_or_lt_of_le hik with rfl | hlt
    · simp [scan, hk]
    · have hi := hbefore i (le_refl i) hlt
      simp only [scan, hi]
      exact ih (i + 1) hlt (by omega) (fun j h1 h2 => hbefore j (by omega) h2)

/-- Where a scan breaks: inside its range, at a rising crossing, with none
before it. -/
theorem scan_some (buf : Nat → Int) (vmid : Int) (n i k : Nat)
    (h : scan buf vmid n i = some k) :
    i ≤ k ∧ k < i + n ∧ rising buf vmid k = true ∧
      ∀ j, i ≤ j → j < k → rising buf vmid j = false := by
  induction n generalizing i with
  | zero => simp [scan] at h
  | succ n ih =>
    by_cases hi : rising buf vmid i = true
    · simp only [scan, hi, if_true, Option.some.injEq] at h
      subst h
      exact ⟨le_refl _, by omega, hi, fun j h1 h2 => by omega⟩
    · have hi' : rising buf vmid i = false := by simpa using hi
      simp only [scan, hi'] at h
      obtain ⟨h1, h2, h3, h4⟩ := ih (i + 1) h
      refine ⟨by omega, by omega, h3, ?_⟩
      intro j hj1 hj2
      rcases Nat.eq_or_lt_of_le hj1 with rfl | hlt
      · exact hi'
      · exact h4 j hlt hj2

/-- Markers after `calc_start_end_wave_idx` when the first scan breaks at `i1`
and the second at `i2`. -/
theorem markers_of_scans (st : DSO) (i1 i2 : Nat)
    (h1 : scan st.buffer_input_data st.V_mid 192 0 = some i1)
    (h2 : scan st.buffer_input_data st.V_mid (192 - (i1 + 1 + 1)) (i1 + 1 + 1) = some i2) :
    (calc_start_end_wave_idx st).start_wave_idx = i1 + 1 ∧
    (calc_start_end_wave_idx st).end_wave_idx = i2 := by
  simp only [calc_start_end_wave_idx, first_scan, second_scan, h1, h2]
  exact ⟨trivial, trivial⟩

/-- Markers after `calc_start_end_wave_idx` when neither scan breaks. -/
theorem markers_of_no_crossing (st : DSO)
    (h1 : scan st.buffer_input_data st.V_mid 192 0 = none)
    (h2 : scan st.buffer_input_data st.V_mid (192 - (st.start_wave_idx + 1))
        (st.start_wave_idx + 1) = none) :
    calc_start_end_wave_idx st = st := by
  simp only [calc_start_end_wave_idx, first_scan, second_scan, h1, h2]

/-- The value `calc_frequency` stores. -/
theorem calc_frequency_freq (st : DSO) :
    (calc_frequency st).freq =
      if st.start_wave_idx < st.end_wave_idx then
        8 / ((((st.end_wave_idx : Int) - (st.start_wave_idx : Int) : Int) : ℚ) * st.ms_per_div)
      else 0 := by
  unfold calc_frequency
  by_cases h : st.start_wave_idx < st.end_wave_idx
  · have ht : (((st.end_wave_idx : Int) - (st.start_wave_idx : Int) : Int) : ℚ) > 0 := by
      have : (0 : Int) < (st.end_wave_idx : Int) - (st.start_wave_idx : Int) := by omega
      exact_mod_cast this
    simp only [ht, h, if_true]
  · have ht : ¬ (((st.end_wave_idx : Int) - (st.start_wave_idx : Int) : Int) : ℚ) > 0 := by
      have : ¬ (0 : Int) < (st.end_wave_idx : Int) - (st.start_wave_idx : Int) := by omega
      exact_mod_cast this
    simp only [ht, h, if_false]

/-! ## Lemmas on square-wave sweeps -/

/-- On a square-wave sweep whose low level is below the threshold and whose
high level is not, the rising crossings inside the buffer are exactly the last
samples of the low runs. -/
theorem square_rising (buf : Nat → Int) (P a phase : Nat) (L H vmid : Int)
    (ha : 0 < a) (haP : a < P) (hL : L < vmid) (hH : vmid ≤ H)
    (hbuf : ∀ k, k < 192 → buf k = square_wave P a phase L H k)
    (k : Nat) (hk : k + 1 < 192) :
    rising buf vmid k = true ↔ (k + phase) % P + 1 = a := by
  have hr : (k + phase) % P < P := Nat.mod_lt _ (by omega)
  have hnext : (k + 1 + phase) % P = ((k + phase) % P + 1) % P := by
    have : k + 1 + phase = k + phase + 1 := by omega
    rw [this, Nat.mod_add_mod]
  rw [rising_iff, hbuf k (by omega), hbuf (k + 1) hk]
  simp only [square_wave, hnext]
  by_cases hlow : (k + phase) % P < a
  · have hmod : ((k + phase) % P + 1) % P = (k + phase) % P + 1 :=
      Nat.mod_eq_of_lt (by omega)
    rw [hmod]
    by_cases hlow2 : (k + phase) % P + 1 < a
    · simp only [hlow, hlow2, if_true]
      constructor
      · intro h; omega
      · intro h; omega
    · simp only [hlow, hlow2, if_true, if_false]
      constructor
      · intro _; omega
      · intro _; exact ⟨hL, hH⟩
  · simp only [hlow, if_false]
    constructor
    · intro h; omega
    · intro h; omega

/-- Two sample positions a distance `d` apart with `0 < d < P` are at
different positions of the cycle. -/
theorem cycle_pos_ne (P i d phase : Nat) (hd : 0 < d) (hdP : d < P) :
    (i + d + phase) % P ≠ (i + phase) % P := by
  intro h
  have hdvd : P ∣ (i + d + phase) - (i + phase) :=
    (Nat.modEq_iff_dvd' (by omega)).mp h.symm
  have hsub : i + d + phase - (i + phase) = d := by omega
  rw [hsub] at hdvd
  have := Nat.le_of_dvd hd hdvd
  omega

/-- Markers on a square-wave sweep: when the first rising edge is at `i0` and
the next one, `P` samples later, is still inside the buffer, the first scan
breaks at `i0` and the second at `i0 + P`. -/
theorem square_markers (st : DSO) (P a phase : Nat) (L H : Int)
    (ha : 0 < a) (haP : a < P) (hL : L < st.V_mid) (hH : st.V_mid ≤ H)
    (hbuf : ∀ k, k < 192 → st.buffer_input_data k = square_wave P a phase L H k)
    (i0 : Nat) (hi0 : (i0 + phase) % P + 1 = a)
    (hleast : ∀ j, j < i0 → (j + phase) % P + 1 ≠ a)
    (hin : i0 + P + 1 < 192) :
    (calc_start_end_wave_idx st).start_wave_idx = i0 + 1 ∧
    (calc_start_end_wave_idx st).end_wave_idx = i0 + P := by
  have hris := square_rising st.buffer_input_data P a phase L H st.V_mid ha haP hL hH hbuf
  have hnot : ∀ k, k + 1 < 192 → (k + phase) % P + 1 ≠ a →
      rising st.buffer_input_data st.V_mid k = false := by
    intro k hk hne
    have := (hris k hk).not.mpr hne
    simpa using this
  have h1 : scan st.buffer_input_data st.V_mid 192 0 = some i0 :=
    scan_first _ _ 192 0 i0 (Nat.zero_le _) (by omega) ((hris i0 (by omega)).mpr hi0)
      (fun j _ hj => hnot j (by omega) (hleast j hj))
  have hper : (i0 + P + phase) % P = (i0 + phase) % P := by
    have : i0 + P + phase = i0 + phase + P := by omega
    rw [this, Nat.add_mod_right]
  have h2 : scan st.buffer_input_data st.V_mid (192 - (i0 + 1 + 1)) (i0 + 1 + 1)
      = some (i0 + P) := by
    refine scan_first _ _ _ _ (i0 + P) (by omega) (by omega)
      ((hris (i0 + P) hin).mpr (by rw [hper]; exact hi0)) ?_
    intro j hj1 hj2
    refine hnot j (by omega) ?_
    obtain ⟨d, rfl⟩ : ∃ d, j = i0 + d := ⟨j - i0, by omega⟩
    have := cycle_pos_ne P i0 d phase (by omega) (by omega)
    omega
  exact markers_of_scans st i0 (i0 + P) h1 h2

/-- On a sweep whose samples all equal `c ≥ 0`, after `calc_vpp_vmid` no index
of the buffer is a rising crossing: no sample is below `V_mid = c / 2`. -/
theorem flat_no_rising (st : DSO) (c : Int) (hc : 0 ≤ c)
    (hflat : ∀ k, k < 192 → st.buffer_input_data k = c) (j : Nat) (hj : j < 192) :
    rising (calc_vpp_vmid st).buffer_input_data (calc_vpp_vmid st).V_mid j = false := by
  obtain ⟨-, -, hmid, -, hb, -⟩ := calc_vpp_vmid_fields st
  rw [hmid, hb, vpp_scan_flat _ c hc hflat]
  have hdiv : Int.tdiv (c + 0) 2 = c / 2 := by
    rw [add_zero]; exact tdiv_two_nonneg c hc
  simp only [rising, hflat j hj, hdiv]
  have : ¬ c < c / 2 := by omega
  simp [this]

/-- On a sweep whose samples lie in `0..H` and reach `H`, the scan ends with
`V_max = H` and `V_min = 0`. -/
theorem vpp_scan_range (buf : Nat → Int) (H : Int)
    (hrange : ∀ k, k < 192 → 0 ≤ buf k ∧ buf k ≤ H)
    (hreach : ∃ k, k < 192 ∧ buf k = H) : vpp_scan buf 192 = (H, 0) := by
  obtain ⟨h1, h2, h3, h4, h5⟩ := vpp_scan_spec buf 192
  obtain ⟨k0, hk0, hbk0⟩ := hreach
  have h0 := h3 k0 hk0
  have hmin : (vpp_scan buf 192).2 = 0 := by
    rcases h4 with h | ⟨x, hx, hb⟩
    · exact h
    · have := hrange x hx
      omega
  have hmax : (vpp_scan buf 192).1 = H := by
    rcases h5 with h | ⟨x, hx, hb⟩
    · have := hrange k0 hk0
      omega
    · have := hrange x hx
      omega
  exact Prod.ext hmax hmin

theorem extremes_spec_succ (buf : Nat → Int) (n : Nat) :
    extremes_spec buf (n + 1)
      = (max (extremes_spec buf n).1 (buf n), min (extremes_spec buf n).2 (buf n)) := by
  simp [extremes_spec, List.range_succ, List.foldl_append]

/-- The `else if` of the source loses no update: the scan computes the same
pair as independent running extremes seeded at 0. -/
theorem vpp_scan_eq_extremes_spec (buf : Nat → Int) (n : Nat) :
    vpp_scan buf n = extremes_spec buf n := by
  induction n with
  | zero => rfl
  | succ n ih =>
    obtain ⟨h1, h2, -⟩ := vpp_scan_spec buf n
    rw [vpp_scan_succ, extremes_spec_succ, ← ih]
    unfold vpp_step
    split_ifs with c1 c2
    · refine Prod.ext ?_ ?_
      · show (vpp_scan buf n).1 = max (vpp_scan buf n).1 (buf n)
        rw [max_eq_left (by omega)]
      · show buf n = min (vpp_scan buf n).2 (buf n)
        rw [min_eq_right c1]
    · refine Prod.ext ?_ ?_
      · show buf n = max (vpp_scan buf n).1 (buf n)
        rw [max_eq_right c2]
      · show (vpp_scan buf n).2 = min (vpp_scan buf n).2 (buf n)
        rw [min_eq_left (by omega)]
    · refine Prod.ext ?_ ?_
      · show (vpp_scan buf n).1 = max (vpp_scan buf n).1 (buf n)
        rw [max_eq_left (by omega)]
      · show (vpp_scan buf n).2 = min (vpp_scan buf n).2 (buf n)
        rw [min_eq_left (by omega)]

/-- The two scans of `calc_start_end_wave_idx` change nothing but the two
markers. -/
theorem calc_start_end_wave_idx_frame (st : DSO) :
    ∃ s e, calc_start_end_wave_idx st = { st with start_wave_idx := s, end_wave_idx := e } := by
  unfold calc_start_end_wave_idx first_scan second_scan
  split <;> split <;> exact ⟨_, _, rfl⟩

/-- What `calc_frequency` leaves alone. -/
theorem calc_frequency_frame (st : DSO) :
    (calc_frequency st).V_pp = st.V_pp ∧
    (calc_frequency st).start_wave_idx = st.start_wave_idx ∧
    (calc_frequency st).end_wave_idx = st.end_wave_idx := by
  simp only [calc_frequency]
  split_ifs <;> exact ⟨rfl, rfl, rfl⟩

/-- The buffer after `sample_input_wave` holds the converted samples. -/
theorem sample_input_wave_buffer (adc : Nat → Int) (st : DSO) (k : Nat) (hk : k < 192) :
    (sample_input_wave adc st).buffer_input_data k = adc k := by
  simp [sample_input_wave, hk]

/-! ## Lemmas on `translate_wave_to_pixels` -/

/-- After `n` iterations the first `n` entries hold the mapped rows and the
rest of the table is untouched. -/
theorem pixel_scan_apply (buf : Nat → Int) (vmid : Int) (pl : Nat → Int) (n k : Nat) :
    pixel_scan buf vmid pl n k
      = if k < n then 32 + Int.tdiv (vmid - buf k) 4 else pl k := by
  induction n with
  | zero => simp [pixel_scan]
  | succ n ih =>
    have hstep : pixel_scan buf vmid pl (n + 1)
        = pixel_step buf vmid (pixel_scan buf vmid pl n) n := by
      simp [pixel_scan, List.range_succ, List.foldl_append]
    rw [hstep]
    unfold pixel_step
    by_cases hk : k = n
    · subst hk
      simp
    · rw [if_neg hk, ih]
      by_cases hlt : k < n
      · rw [if_pos hlt, if_pos (by omega)]
      · rw [if_neg hlt, if_neg (by omega)]

/-- C division by four written with flooring division. -/
theorem tdiv_four (x : Int) :
    Int.tdiv x 4 = if 0 ≤ x then x / 4 else -((-x) / 4) := by
  by_cases h : 0 ≤ x
  · rw [if_pos h, Int.tdiv_eq_ediv h (by norm_num)]
  · rw [if_neg h]
    have hneg : x = -(-x) := by ring
    conv_lhs => rw [hneg]
    rw [Int.neg_tdiv, Int.tdiv_eq_ediv (by omega) (by norm_num)]

/-- C division by four is monotone. -/
theorem tdiv_four_mono (x y : Int) (h : x ≤ y) : Int.tdiv x 4 ≤ Int.tdiv y 4 := by
  rw [tdiv_four x, tdiv_four y]
  split_ifs <;> omega

/-- C division by two written with flooring division. -/
theorem tdiv_two (x : Int) :
    Int.tdiv x 2 = if 0 ≤ x then x / 2 else -((-x) / 2) := by
  by_cases h : 0 ≤ x
  · rw [if_pos h, Int.tdiv_eq_ediv h (by norm_num)]
  · rw [if_neg h]
    have hneg : x = -(-x) := by ring
    conv_lhs => rw [hneg]
    rw [Int.neg_tdiv, Int.tdiv_eq_ediv (by omega) (by norm_num)]

/-- A whole sweep over a square wave with low level `0 ≤ L < H / 2`: the
amplitude scan yields `(H, 0)`, and the markers are one past the first rising
edge `i0` and the below-threshold index `i0 + P` of the next one. -/
theorem square_sweep (st : DSO) (P a phase : Nat) (L H : Int)
    (ha : 0 < a) (haP : a < P) (hL0 : 0 ≤ L) (hLH : L < Int.tdiv H 2)
    (hbuf : ∀ k, k < 192 → st.buffer_input_data k = square_wave P a phase L H k)
    (i0 : Nat) (hi0 : (i0 + phase) % P + 1 = a)
    (hleast : ∀ j, j < i0 → (j + phase) % P + 1 ≠ a)
    (hin : i0 + P + 1 < 192) :
    vpp_scan st.buffer_input_data 192 = (H, 0) ∧
    (calc_start_end_wave_idx (calc_vpp_vmid st)).start_wave_idx = i0 + 1 ∧
    (calc_start_end_wave_idx (calc_vpp_vmid st)).end_wave_idx = i0 + P := by
  have hH0 : 0 ≤ H := by
    by_contra hneg
    rw [tdiv_two, if_neg hneg] at hLH
    omega
  have hhalf : Int.tdiv H 2 = H / 2 := tdiv_two_nonneg H hH0
  have hscan : vpp_scan st.buffer_input_data 192 = (H, 0) := by
    apply vpp_scan_range
    · intro k hk
      rw [hbuf k hk]
      unfold square_wave
      split_ifs <;> omega
    · refine ⟨i0 + 1, by omega, ?_⟩
      rw [hbuf (i0 + 1) (by omega)]
      have hnext : (i0 + 1 + phase) % P = a := by
        have : i0 + 1 + phase = i0 + phase + 1 := by omega
        rw [this, ← Nat.mod_add_mod, hi0, Nat.mod_eq_of_lt haP]
      simp [square_wave, hnext]
  obtain ⟨-, -, hmid, -, hb, -⟩ := calc_vpp_vmid_fields st
  rw [hscan] at hmid
  have hmid2 : (calc_vpp_vmid st).V_mid = H / 2 := by
    rw [hmid]
    show Int.tdiv (H + 0) 2 = H / 2
    rw [add_zero, hhalf]
  have hm := square_markers (calc_vpp_vmid st) P a phase L H ha haP
    (by rw [hmid2]; omega) (by rw [hmid2]; omega) (by rw [hb]; exact hbuf)
    i0 hi0 hleast hin
  exact ⟨hscan, hm.1, hm.2⟩

/-- The row `translate_wave_to_pixels` stores for a column of the trace. -/
theorem translate_pixel_loc (st : DSO) (i : Nat) (hi : i < 96) :
    (translate_wave_to_pixels st).pixel_loc i
      = 32 + Int.tdiv (st.V_mid - st.buffer_input_data i) 4 := by
  show pixel_scan st.buffer_input_data st.V_mid st.pixel_loc 96 i = _
  rw [pixel_scan_apply, if_pos hi]

/-- What `translate_wave_to_pixels` leaves alone behind the 96 columns. -/
theorem translate_pixel_loc_beyond (st : DSO) (i : Nat) (hi : 96 ≤ i) :
    (translate_wave_to_pixels st).pixel_loc i = st.pixel_loc i := by
  show pixel_scan st.buffer_input_data st.V_mid st.pixel_loc 96 i = _
  rw [pixel_scan_apply, if_neg (by omega)]

/-! ## Lemmas on the memory accesses of the scans -/

/-- A scan that does not break met no rising crossing in its range. -/
theorem scan_eq_none (buf : Nat → Int) (vmid : Int) (n i : Nat)
    (h : scan buf vmid n i = none) :
    ∀ j, i ≤ j → j < i + n → rising buf vmid j = false := by
  induction n generalizing i with
  | zero => intro j h1 h2; omega
  | succ n ih =>
    by_cases hi : rising buf vmid i = true
    · simp [scan, hi] at h
    · have hi' : rising buf vmid i = false := by simpa using hi
      simp only [scan, hi'] at h
      intro j h1 h2
      rcases Nat.eq_or_lt_of_le h1 with rfl | hlt
      · exact hi'
      · exact ih (i + 1) h j hlt (by omega)

theorem no_rising_from_step (buf : Nat → Int) (vmid : Int) (i : Nat) (hi : i < 191) :
    (∀ j, i ≤ j → j < 191 → rising buf vmid j = false) ↔
      rising buf vmid i = false ∧ ∀ j, i + 1 ≤ j → j < 191 → rising buf vmid j = false := by
  constructor
  · intro h
    exact ⟨h i (le_refl i) hi, fun j h1 h2 => h j (by omega) h2⟩
  · rintro ⟨h0, h⟩ j h1 h2
    rcases Nat.eq_or_lt_of_le h1 with rfl | hlt
    · exact h0
    · exact h j hlt h2

/-- A scan loop running up to the bound 192 reads index 192 exactly when it
gets to `i = 191` without breaking and `buffer_input_data[191] < V_mid`. -/
theorem scan_reads_past_end (buf : Nat → Int) (vmid : Int) (n i : Nat)
    (h : i + n = 192) (hn : 0 < n) :
    192 ∈ scan_reads buf vmid n i ↔
      buf 191 < vmid ∧ ∀ j, i ≤ j → j < 191 → rising buf vmid j = false := by
  induction n generalizing i with
  | zero => omega
  | succ n ih =>
    rcases Nat.eq_zero_or_pos n with hn0 | hnpos
    · subst hn0
      have hi : i = 191 := by omega
      subst hi
      have hvac : ∀ j, 191 ≤ j → j < 191 → rising buf vmid j = false :=
        fun j h1 h2 => by omega
      by_cases hlo : buf 191 < vmid
      · by_cases hhi : buf (191 + 1) ≥ vmid
        · simp only [scan_reads, hlo, hhi, if_true]
          exact ⟨fun _ => ⟨trivial, hvac⟩, fun _ => by simp⟩
        · simp only [scan_reads, hlo, hhi, if_true, if_false]
          exact ⟨fun _ => ⟨trivial, hvac⟩, fun _ => by simp⟩
      · simp only [scan_reads, hlo, if_false]
        constructor
        · intro hm
          simp at hm
        · intro hm
          exact absurd hm.1 (by simp)
    · have hi : i < 191 := by omega
      have hih := ih (i + 1) (by omega) hnpos
      rw [no_rising_from_step buf vmid i hi]
      by_cases hlo : buf i < vmid
      · by_cases hhi : buf (i + 1) ≥ vmid
        · have hr : rising buf vmid i = true := (rising_iff _ _ _).mpr ⟨hlo, hhi⟩
          simp only [scan_reads, hlo, hhi, if_true, hr]
          constructor
          · intro hm
            simp only [List.mem_cons, List.mem_singleton, List.not_mem_nil, or_false] at hm
            omega
          · intro hm
            exact absurd hm.2.1 (by simp)
        · have hr : rising buf vmid i = false := by
            have := (rising_iff buf vmid i).not.mpr (fun hc => hhi hc.2)
            simpa using this
          simp only [scan_reads, hlo, hhi, if_true, if_false, hr, true_and]
          rw [← hih]
          simp only [List.mem_cons]
          constructor
          · intro hm
            rcases hm with hm | hm | hm
            · omega
            · omega
            · exact hm
          · intro hm
            exact Or.inr (Or.inr hm)
      · have hr : rising buf vmid i = false := by
          have := (rising_iff buf vmid i).not.mpr (fun hc => hlo hc.1)
          simpa using this
        simp only [scan_reads, hlo, if_false, hr, true_and]
        rw [← hih]
        simp only [List.mem_cons]
        constructor
        · intro hm
          rcases hm with hm | hm
          · omega
          · exact hm
        · intro hm
          exact Or.inr hm

/-- A scan loop running up to the bound 192 executes its body for `i = 191`
exactly when it meets no rising crossing before. -/
theorem scan_visits_last (buf : Nat → Int) (vmid : Int) (n i : Nat)
    (h : i + n = 192) (hn : 0 < n) :
    191 ∈ scan_visits buf vmid n i ↔
      ∀ j, i ≤ j → j < 191 → rising buf vmid j = false := by
  induction n generalizing i with
  | zero => omega
  | succ n ih =>
    rcases Nat.eq_zero_or_pos n with hn0 | hnpos
    · subst hn0
      have hi : i = 191 := by omega
      subst hi
      simp only [scan_visits]
      exact ⟨fun _ j h1 h2 => by omega, fun _ => by simp⟩
    · have hi : i < 191 := by omega
      have hih := ih (i + 1) (by omega) hnpos
      rw [no_rising_from_step buf vmid i hi]
      by_cases hr : rising buf vmid i = true
      · simp only [scan_visits, hr, if_true]
        constructor
        · intro hm
          simp only [List.mem_cons, List.not_mem_nil, or_false] at hm
          omega
        · intro hm
          exact absurd hm.1 (by simp)
      · have hr' : rising buf vmid i = false := by simpa using hr
        simp only [scan_visits, hr', true_and]
        rw [← hih]
        simp only [List.mem_cons]
        constructor
        · intro hm
          rcases hm with hm | hm
          · omega
          · simpa using hm
        · intro hm
          exact Or.inr (by simpa using hm)

/-- The scan loop started at counter value `s` with bound 192 reads index
192 exactly when `s ≤ 191`, it meets no rising crossing before 191 and
`buffer_input_data[191] < V_mid`. -/
theorem scan_reads_past_end_from (buf : Nat → Int) (vmid : Int) (s : Nat) :
    192 ∈ scan_reads buf vmid (192 - s) s ↔
      s ≤ 191 ∧ buf 191 < vmid ∧ ∀ j, s ≤ j → j < 191 → rising buf vmid j = false := by
  by_cases hs : s ≤ 191
  · rw [scan_reads_past_end buf vmid (192 - s) s (by omega) (by omega)]
    exact ⟨fun h => ⟨hs, h⟩, fun h => h.2⟩
  · have h0 : 192 - s = 0 := by omega
    rw [h0]
    simp only [scan_reads, List.not_mem_nil, false_iff]
    intro hc
    exact hs hc.1

/-- The scan loop started at counter value `s` with bound 192 executes its
body for `i = 191` exactly when `s ≤ 191` and it meets no rising crossing
before. -/
theorem scan_visits_last_from (buf : Nat → Int) (vmid : Int) (s : Nat) :
    191 ∈ scan_visits buf vmid (192 - s) s ↔
      s ≤ 191 ∧ ∀ j, s ≤ j → j < 191 → rising buf vmid j = false := by
  by_cases hs : s ≤ 191
  · rw [scan_visits_last buf vmid (192 - s) s (by omega) (by omega)]
    exact ⟨fun h => ⟨hs, h⟩, fun h => h.2⟩
  · have h0 : 192 - s = 0 := by omega
    rw [h0]
    simp only [scan_visits, List.not_mem_nil, false_iff]
    intro hc
    exact hs hc.1

/-- The out-of-range read of `calc_start_end_wave_idx` in terms of the two
scan loops. -/
theorem reads_past_end_iff (st : DSO) :
    192 ∈ calc_start_end_wave_idx_reads st ↔
      st.buffer_input_data 191 < st.V_mid ∧
      ((∀ j, 0 ≤ j → j < 191 → rising st.buffer_input_data st.V_mid j = false) ∨
       ((first_scan st).start_wave_idx + 1 ≤ 191 ∧
        ∀ j, (first_scan st).start_wave_idx + 1 ≤ j → j < 191 →
          rising st.buffer_input_data st.V_mid j = false)) := by
  unfold calc_start_end_wave_idx_reads
  rw [List.mem_append, scan_reads_past_end_from,
    scan_reads_past_end st.buffer_input_data st.V_mid 192 0 (by omega) (by omega)]
  constructor
  · rintro (⟨ha, hp⟩ | ⟨hs, ha, hp⟩)
    · exact ⟨ha, Or.inl hp⟩
    · exact ⟨ha, Or.inr ⟨hs, hp⟩⟩
  · rintro ⟨ha, hp | ⟨hs, hp⟩⟩
    · exact Or.inl ⟨ha, hp⟩
    · exact Or.inr ⟨hs, ha, hp⟩

/-- The visit of `i = 191` by `calc_start_end_wave_idx` in terms of the two
scan loops. -/
theorem visits_last_iff (st : DSO) :
    191 ∈ calc_start_end_wave_idx_visits st ↔
      ((∀ j, 0 ≤ j → j < 191 → rising st.buffer_input_data st.V_mid j = false) ∨
       ((first_scan st).start_wave_idx + 1 ≤ 191 ∧
        ∀ j, (first_scan st).start_wave_idx + 1 ≤ j → j < 191 →
          rising st.buffer_input_data st.V_mid j = false)) := by
  unfold calc_start_end_wave_idx_visits
  rw [List.mem_append, scan_visits_last_from,
    scan_visits_last st.buffer_input_data st.V_mid 192 0 (by omega) (by omega)]

/-- With `buffer_input_data[191] < V_mid`, a scan gets to `i = 191` exactly
when indices `0..190` hold fewer than two rising crossings. -/
theorem reaches_last_iff_fewer_than_two (st : DSO)
    (ha : st.buffer_input_data 191 < st.V_mid) :
    ((∀ j, 0 ≤ j → j < 191 → rising st.buffer_input_data st.V_mid j = false) ∨
       ((first_scan st).start_wave_idx + 1 ≤ 191 ∧
        ∀ j, (first_scan st).start_wave_idx + 1 ≤ j → j < 191 →
          rising st.buffer_input_data st.V_mid j = false)) ↔
    ¬ ∃ i j, i < j ∧ j ≤ 190 ∧ rising st.buffer_input_data st.V_mid i = true ∧
        rising st.buffer_input_data st.V_mid j = true := by
  cases h1 : scan st.buffer_input_data st.V_mid 192 0 with
  | none =>
    have hnone := scan_eq_none _ _ _ _ h1
    constructor
    · rintro - ⟨i, j, hij, hj, hri, -⟩
      have := hnone i (Nat.zero_le _) (by omega)
      rw [this] at hri
      exact absurd hri (by simp)
    · intro _
      exact Or.inl (fun j h0 hj => hnone j h0 (by omega))
  | some i1 =>
    obtain ⟨-, hi1, hr1, hbefore⟩ := scan_some _ _ _ _ _ h1
    have hstart : (first_scan st).start_wave_idx = i1 + 1 := by
      simp only [first_scan, h1]
    have hnext : st.buffer_input_data (i1 + 1) ≥ st.V_mid := ((rising_iff _ _ _).mp hr1).2
    have hi190 : i1 ≠ 190 := by
      intro h
      rw [h] at hnext
      have h191 : st.buffer_input_data (190 + 1) = st.buffer_input_data 191 := rfl
      rw [h191] at hnext
      omega
    rw [hstart]
    constructor
    · rintro (hp | ⟨hs, hp⟩)
      · rintro ⟨i, j, hij, hj, hri, -⟩
        have := hp i (Nat.zero_le _) (by omega)
        rw [this] at hri
        exact absurd hri (by simp)
      · rintro ⟨i, j, hij, hj, hri, hrj⟩
        have hi_ge : i1 ≤ i := by
          by_contra hlt
          have := hbefore i (Nat.zero_le _) (by omega)
          rw [this] at hri
          exact absurd hri (by simp)
        have hj_ne : j ≠ i1 + 1 := by
          intro h
          rw [h] at hrj
          have := ((rising_iff _ _ _).mp hrj).1
          omega
        have := hp j (by omega) (by omega)
        rw [this] at hrj
        exact absurd hrj (by simp)
    · intro hq
      rcases Nat.lt_or_ge i1 191 with hlt | hge
      · refine Or.inr ⟨by omega, ?_⟩
        intro j hj1 hj2
        by_contra hrj
        have hrj' : rising st.buffer_input_data st.V_mid j = true := by simpa using hrj
        exact hq ⟨i1, j, by omega, by omega, hr1, hrj'⟩
      · exact Or.inl (fun j h0 hj => hbefore j h0 (by omega))

/-! ## Lemmas on the switch handlers -/

theorem div_add_ms_per_div (st : DSO) :
    (div_add_sw_pin_int_vect st).ms_per_div
      = if st.ms_per_div + 1 / 2 > 2 then 1 / 2 else st.ms_per_div + 1 / 2 := by
  simp only [div_add_sw_pin_int_vect]
  split_ifs <;> rfl

theorem div_sub_ms_per_div (st : DSO) :
    (div_sub_sw_pin_int_vect st).ms_per_div
      = if st.ms_per_div - 1 / 2 ≤ 0 then 1 / 2 else st.ms_per_div - 1 / 2 := by
  simp only [div_sub_sw_pin_int_vect]
  split_ifs <;> rfl

theorem up_vert_disp (st : DSO) :
    (up_sw_pin_int_vect st).vert_disp
      = if st.vert_disp - 1 < -31 then 0 else st.vert_disp - 1 := by
  simp only [up_sw_pin_int_vect]
  split_ifs <;> rfl

theorem down_vert_disp (st : DSO) :
    (down_sw_pin_int_vect st).vert_disp
      = if st.vert_disp + 1 > 31 then 0 else st.vert_disp + 1 := by
  simp only [down_sw_pin_int_vect]
  split_ifs <;> rfl

/-- The scale handlers leave the vertical offset alone and the offset
handlers leave the time scale alone. -/
theorem handlers_frame (st : DSO) :
    (div_add_sw_pin_int_vect st).vert_disp = st.vert_disp ∧
    (div_sub_sw_pin_int_vect st).vert_disp = st.vert_disp ∧
    (up_sw_pin_int_vect st).ms_per_div = st.ms_per_div ∧
    (down_sw_pin_int_vect st).ms_per_div = st.ms_per_div := by
  refine ⟨?_, ?_, ?_, ?_⟩
  · simp only [div_add_sw_pin_int_vect]; split_ifs <;> rfl
  · simp only [div_sub_sw_pin_int_vect]; split_ifs <;> rfl
  · simp only [up_sw_pin_int_vect]; split_ifs <;> rfl
  · simp only [down_sw_pin_int_vect]; split_ifs <;> rfl

theorem run_events_snoc (st : DSO) (evs : List SwitchEvent) (e : SwitchEvent) :
    run_events st (evs ++ [e]) = handle_event (run_events st evs) e := by
  simp [run_events, List.foldl_append]

/-- One switch interrupt keeps the vertical offset inside `-31..31`. -/
theorem handle_event_vert_disp_range (st : DSO) (e : SwitchEvent)
    (h : -31 ≤ st.vert_disp ∧ st.vert_disp ≤ 31) :
    -31 ≤ (handle_event st e).vert_disp ∧ (handle_event st e).vert_disp ≤ 31 := by
  obtain ⟨f1, f2, -, -⟩ := handlers_frame st
  cases e with
  | div_add => simp only [handle_event]; rw [f1]; exact h
  | div_sub => simp only [handle_event]; rw [f2]; exact h
  | up =>
    simp only [handle_event]
    rw [up_vert_disp]
    split_ifs <;> omega
  | down =>
    simp only [handle_event]
    rw [down_vert_disp]
    split_ifs <;> omega

/-- One switch interrupt keeps `ms_per_div` among the four settings. -/
theorem handle_event_ms_per_div_setting (st : DSO) (e : SwitchEvent)
    (h : st.ms_per_div = 1 / 2 ∨ st.ms_per_div = 1 ∨ st.ms_per_div = 3 / 2 ∨ st.ms_per_div = 2) :
    (handle_event st e).ms_per_div = 1 / 2 ∨ (handle_event st e).ms_per_div = 1 ∨
    (handle_event st e).ms_per_div = 3 / 2 ∨ (handle_event st e).ms_per_div = 2 := by
  obtain ⟨-, -, f3, f4⟩ := handlers_frame st
  cases e with
  | div_add =>
    simp only [handle_event]
    rw [div_add_ms_per_div]
    rcases h with h | h | h | h <;> rw [h] <;> norm_num
  | div_sub =>
    simp only [handle_event]
    rw [div_sub_ms_per_div]
    rcases h with h | h | h | h <;> rw [h] <;> norm_num
  | up => simp only [handle_event]; rw [f3]; exact h
  | down => simp only [handle_event]; rw [f4]; exact h

/-- After any sequence of switch interrupts, started with `ms_per_div` among
the four settings, it is still among them. -/
theorem run_events_ms_per_div_setting (st : DSO) (evs : List SwitchEvent)
    (hms : st.ms_per_div = 1 / 2 ∨ st.ms_per_div = 1 ∨ st.ms_per_div = 3 / 2
      ∨ st.ms_per_div = 2) :
    (run_events st evs).ms_per_div = 1 / 2 ∨ (run_events st evs).ms_per_div = 1 ∨
      (run_events st evs).ms_per_div = 3 / 2 ∨ (run_events st evs).ms_per_div = 2 := by
  induction evs using List.reverseRecOn with
  | nil => exact hms
  | append_singleton evs e ih =>
    rw [run_events_snoc]
    exact handle_event_ms_per_div_setting _ e ih

/-- After any sequence of switch interrupts, started with the offset inside
`-31..31`, it is still inside. -/
theorem run_events_vert_disp_range (st : DSO) (evs : List SwitchEvent)
    (hvd : -31 ≤ st.vert_disp ∧ st.vert_disp ≤ 31) :
    -31 ≤ (run_events st evs).vert_disp ∧ (run_events st evs).vert_disp ≤ 31 := by
  induction evs using List.reverseRecOn with
  | nil => exact hvd
  | append_singleton evs e ih =>
    rw [run_events_snoc]
    exact handle_event_vert_disp_range _ e ih

/-- The delay selected for each of the four settings. -/
theorem sample_delay_us_settings :
    sample_delay_us (1 / 2) = some 60 ∧ sample_delay_us 1 = some 110 ∧
    sample_delay_us (3 / 2) = some 160 ∧ sample_delay_us 2 = some 210 := by
  refine ⟨?_, ?_, ?_, ?_⟩ <;> norm_num [sample_delay_us]

/-- As C parses it, the wait-loop condition of the hold handler is false for
every register value and every pin: `1 << pin` is never 0, so the register is
masked with 0. -/
theorem hold_wait_condition_false (reg pin : Nat) : hold_wait_condition reg pin = false := by
  have hne : (1 <<< pin) ≠ 0 := by
    rw [Nat.shiftLeft_eq, one_mul]
    exact pow_ne_zero pin (by norm_num)
  simp [hold_wait_condition, hne]

/-- The wait loop of the hold handler is left at its first evaluation. -/
theorem hold_wait_first (pin : Nat) (reg : Nat → Nat) (fuel : Nat) :
    hold_wait pin reg (fuel + 1) 0 = some 0 := by
  simp [hold_wait, hold_wait_condition_false]

/-! ## Claims -/


/-- C1: after `calc_vpp_vmid`, for every buffer of integer samples,
`V_min ≤ V_mid ≤ V_max`, where `V_mid` is `(V_max + V_min) / 2` with C
truncating division. -/
theorem calc_vpp_vmid_min_le_mid_le_max (st : DSO) :
    (calc_vpp_vmid st).V_mid
        = Int.tdiv ((calc_vpp_vmid st).V_max + (calc_vpp_vmid st).V_min) 2 ∧
    (calc_vpp_vmid st).V_min ≤ (calc_vpp_vmid st).V_mid ∧
    (calc_vpp_vmid st).V_mid ≤ (calc_vpp_vmid st).V_max := by
  obtain ⟨h1, h2, -⟩ := vpp_scan_spec st.buffer_input_data 192
  have hb := tdiv_two_between _ _ h1 h2
  simp only [calc_vpp_vmid]
  exact ⟨trivial, hb.1, hb.2⟩

/-- C2, refuted as stated: a flat sweep at level 100 does not give `V_pp = 0`.
The minimum stays at its seed 0 while the maximum becomes 100, so
`V_max - V_min = 100` and `V_pp` is not 0. -/
theorem calc_vpp_vmid_flat_counterexample :
    (∀ k, k < 192 →
      (sample_input_wave (flat_buffer 100) power_on).buffer_input_data k = 100) ∧
    (calc_vpp_vmid (sample_input_wave (flat_buffer 100) power_on)).V_min = 0 ∧
    (calc_vpp_vmid (sample_input_wave (flat_buffer 100) power_on)).V_max = 100 ∧
    (calc_vpp_vmid (sample_input_wave (flat_buffer 100) power_on)).V_pp ≠ 0 := by
  have hflat : ∀ k, k < 192 →
      (sample_input_wave (flat_buffer 100) power_on).buffer_input_data k = 100 :=
    fun k hk => sample_input_wave_buffer _ _ k hk
  obtain ⟨hmax, hmin, -, hpp, -⟩ :=
    calc_vpp_vmid_fields (sample_input_wave (flat_buffer 100) power_on)
  rw [vpp_scan_flat _ 100 (by norm_num) hflat] at hmax hmin hpp
  refine ⟨hflat, hmin, hmax, ?_⟩
  rw [hpp]
  norm_num

/-- C2, amended: on a flat sweep at level `c ≥ 0`, `calc_vpp_vmid` yields
`V_min = 0` and `V_max = c`, and `V_pp` is 0 exactly when `c = 0`. -/
theorem calc_vpp_vmid_flat (st : DSO) (c : Int) (hc : 0 ≤ c)
    (hflat : ∀ k, k < 192 → st.buffer_input_data k = c) :
    (calc_vpp_vmid st).V_min = 0 ∧ (calc_vpp_vmid st).V_max = c ∧
    ((calc_vpp_vmid st).V_pp = 0 ↔ c = 0) := by
  obtain ⟨hmax, hmin, -, hpp, -⟩ := calc_vpp_vmid_fields st
  rw [vpp_scan_flat _ c hc hflat] at hmax hmin hpp
  have hpp2 : (calc_vpp_vmid st).V_pp = (c : ℚ) * 5 / 255 := by
    rw [hpp]
    show (((c - 0 : Int) : ℚ)) * 5 / 255 = (c : ℚ) * 5 / 255
    rw [sub_zero]
  refine ⟨hmin, hmax, ?_⟩
  rw [hpp2]
  constructor
  · intro h
    have h2 : (c : ℚ) = 0 := by
      have h3 : (c : ℚ) * 5 = 0 := by
        rcases div_eq_zero_iff.mp h with h4 | h4
        · exact h4
        · norm_num at h4
      rcases mul_eq_zero.mp h3 with h4 | h4
      · exact h4
      · norm_num at h4
    exact_mod_cast h2
  · intro h
    rw [h]
    norm_num

/-- Witness for C2 (amended): the flat sweep at level 100. -/
theorem calc_vpp_vmid_flat_witness :
    (calc_vpp_vmid (sample_input_wave (flat_buffer 100) power_on)).V_min = 0 ∧
    (calc_vpp_vmid (sample_input_wave (flat_buffer 100) power_on)).V_max = 100 ∧
    ((calc_vpp_vmid (sample_input_wave (flat_buffer 100) power_on)).V_pp = 0
      ↔ (100 : Int) = 0) :=
  calc_vpp_vmid_flat (sample_input_wave (flat_buffer 100) power_on) 100 (by decide)
    (fun k hk => sample_input_wave_buffer _ _ k hk)

/-- C3, refuted as stated: a sweep over a 16-sample square wave leaves the
markers at 8 and 23; the following sweep over a flat buffer at level 100 finds
no crossing, keeps those markers and stores `freq = 8 / (15 * 0.5)`, not 0. -/
theorem measure_parameters_flat_counterexample :
    (measure_parameters (sample_input_wave (square_wave 16 8 0 0 204) power_on)).start_wave_idx
      = 8 ∧
    (measure_parameters (sample_input_wave (square_wave 16 8 0 0 204) power_on)).end_wave_idx
      = 23 ∧
    (measure_parameters (sample_input_wave (flat_buffer 100)
      (measure_parameters (sample_input_wave (square_wave 16 8 0 0 204) power_on)))).freq
      = 16 / 15 ∧
    (measure_parameters (sample_input_wave (flat_buffer 100)
      (measure_parameters (sample_input_wave (square_wave 16 8 0 0 204) power_on)))).freq
      ≠ 0 := by
  have hs : (calc_start_end_wave_idx (calc_vpp_vmid (sample_input_wave (flat_buffer 100)
      (measure_parameters (sample_input_wave (square_wave 16 8 0 0 204)
        power_on))))).start_wave_idx = 8 := by decide
  have he : (calc_start_end_wave_idx (calc_vpp_vmid (sample_input_wave (flat_buffer 100)
      (measure_parameters (sample_input_wave (square_wave 16 8 0 0 204)
        power_on))))).end_wave_idx = 23 := by decide
  have hm : (calc_start_end_wave_idx (calc_vpp_vmid (sample_input_wave (flat_buffer 100)
      (measure_parameters (sample_input_wave (square_wave 16 8 0 0 204)
        power_on))))).ms_per_div = 1 / 2 := rfl
  have hf : (measure_parameters (sample_input_wave (flat_buffer 100)
      (measure_parameters (sample_input_wave (square_wave 16 8 0 0 204) power_on)))).freq
      = 16 / 15 := by
    rw [measure_parameters, calc_frequency_freq, hs, he, hm]
    norm_num
  refine ⟨by decide, by decide, hf, ?_⟩
  rw [hf]
  norm_num

/-- C3, amended: on a flat sweep at level `c ≥ 0`, for every `ms_per_div` and
every prior pair of markers, neither scan of `measure_parameters` finds a
rising crossing and both markers keep their prior values; `freq` is set to 0
whenever those prior markers satisfy `end_wave_idx ≤ start_wave_idx`, as they
do at power-on. -/
theorem measure_parameters_flat (st : DSO) (c : Int) (hc : 0 ≤ c)
    (hflat : ∀ k, k < 192 → st.buffer_input_data k = c) :
    scan (calc_vpp_vmid st).buffer_input_data (calc_vpp_vmid st).V_mid 192 0 = none ∧
    scan (calc_vpp_vmid st).buffer_input_data (calc_vpp_vmid st).V_mid
      (192 - (st.start_wave_idx + 1)) (st.start_wave_idx + 1) = none ∧
    (measure_parameters st).start_wave_idx = st.start_wave_idx ∧
    (measure_parameters st).end_wave_idx = st.end_wave_idx ∧
    (st.end_wave_idx ≤ st.start_wave_idx → (measure_parameters st).freq = 0) := by
  obtain ⟨-, -, -, -, -, hs, he, -⟩ := calc_vpp_vmid_fields st
  have h1 : scan (calc_vpp_vmid st).buffer_input_data (calc_vpp_vmid st).V_mid 192 0 = none :=
    scan_none _ _ _ _ (fun j _ hj => flat_no_rising st c hc hflat j (by omega))
  have h2 : scan (calc_vpp_vmid st).buffer_input_data (calc_vpp_vmid st).V_mid
      (192 - (st.start_wave_idx + 1)) (st.start_wave_idx + 1) = none :=
    scan_none _ _ _ _ (fun j _ hj => flat_no_rising st c hc hflat j (by omega))
  have hkeep : calc_start_end_wave_idx (calc_vpp_vmid st) = calc_vpp_vmid st :=
    markers_of_no_crossing _ h1 (by rw [hs]; exact h2)
  obtain ⟨-, hfs, hfe⟩ := calc_frequency_frame (calc_start_end_wave_idx (calc_vpp_vmid st))
  refine ⟨h1, h2, ?_, ?_, ?_⟩
  · rw [measure_parameters, hfs, hkeep, hs]
  · rw [measure_parameters, hfe, hkeep, he]
  · intro hle
    rw [measure_parameters, calc_frequency_freq, hkeep, hs, he, if_neg (by omega)]

/-- Witness for C3 (amended): the first sweep after power-on over a flat
buffer at level 100. -/
theorem measure_parameters_flat_witness :
    (measure_parameters (sample_input_wave (flat_buffer 100) power_on)).start_wave_idx = 0 ∧
    (measure_parameters (sample_input_wave (flat_buffer 100) power_on)).end_wave_idx = 0 ∧
    (measure_parameters (sample_input_wave (flat_buffer 100) power_on)).freq = 0 :=
  have h := measure_parameters_flat (sample_input_wave (flat_buffer 100) power_on) 100
    (by decide) (fun k hk => sample_input_wave_buffer _ _ k hk)
  ⟨h.2.2.1, h.2.2.2.1, h.2.2.2.2 (le_refl 0)⟩

/-- C4: when some index `i ≤ 190` is a rising crossing of the threshold
`V_mid`, `calc_start_end_wave_idx` leaves `start_wave_idx = i0 + 1` where `i0`
is the least such index. -/
theorem calc_start_end_wave_idx_first_crossing (st : DSO) (i0 : Nat) (hi0 : i0 ≤ 190)
    (hlo : st.buffer_input_data i0 < st.V_mid)
    (hhi : st.buffer_input_data (i0 + 1) ≥ st.V_mid)
    (hleast : ∀ j, j < i0 →
      ¬ (st.buffer_input_data j < st.V_mid ∧ st.buffer_input_data (j + 1) ≥ st.V_mid)) :
    (calc_start_end_wave_idx st).start_wave_idx = i0 + 1 := by
  have h1 : scan st.buffer_input_data st.V_mid 192 0 = some i0 := by
    refine scan_first _ _ 192 0 i0 (Nat.zero_le _) (by omega)
      ((rising_iff _ _ _).mpr ⟨hlo, hhi⟩) ?_
    intro j _ hj
    have := (rising_iff st.buffer_input_data st.V_mid j).not.mpr (hleast j hj)
    simpa using this
  simp only [calc_start_end_wave_idx, first_scan, h1]
  unfold second_scan
  split <;> rfl

/-- Witness for C4: a 16-sample square wave between 0 and 204 with threshold
102 has its first rising crossing at index 7. -/
theorem calc_start_end_wave_idx_first_crossing_witness :
    (calc_start_end_wave_idx
      (calc_vpp_vmid (sample_input_wave (square_wave 16 8 0 0 204) power_on))).start_wave_idx
      = 7 + 1 :=
  calc_start_end_wave_idx_first_crossing
    (calc_vpp_vmid (sample_input_wave (square_wave 16 8 0 0 204) power_on)) 7
    (by decide) (by decide) (by decide) (by decide)

/-- C5, refuted as stated: a clean 16-sample square wave between the levels
100 and 150, with rising edges at indices 7 and 23 well inside the buffer, is
not detected.  The minimum stays at its seed 0, the threshold becomes 75, no
sample is below it, and the markers keep their power-on values 0 and 0. -/
theorem square_wave_period_counterexample :
    square_wave 16 8 0 100 150 7 = 100 ∧ square_wave 16 8 0 100 150 8 = 150 ∧
    square_wave 16 8 0 100 150 23 = 100 ∧ square_wave 16 8 0 100 150 24 = 150 ∧
    (calc_vpp_vmid (sample_input_wave (square_wave 16 8 0 100 150) power_on)).V_mid = 75 ∧
    ¬ (|((calc_start_end_wave_idx (calc_vpp_vmid
          (sample_input_wave (square_wave 16 8 0 100 150) power_on))).end_wave_idx : Int)
        - ((calc_start_end_wave_idx (calc_vpp_vmid
          (sample_input_wave (square_wave 16 8 0 100 150) power_on))).start_wave_idx : Int)
        - 16| ≤ 1) := by
  have hs : (calc_start_end_wave_idx (calc_vpp_vmid
      (sample_input_wave (square_wave 16 8 0 100 150) power_on))).start_wave_idx = 0 := by
    decide
  have he : (calc_start_end_wave_idx (calc_vpp_vmid
      (sample_input_wave (square_wave 16 8 0 100 150) power_on))).end_wave_idx = 0 := by
    decide
  refine ⟨by decide, by decide, by decide, by decide, by decide, ?_⟩
  rw [hs, he]
  norm_num

/-- C5, amended: for a clean square wave of period `P` (each cycle `a` samples
at `L` then `P - a` samples at `H`, any phase) whose low level lies below the
threshold, `0 ≤ L < H / 2` in C division, and whose first rising edge `i0` and
the next one `P` samples later are both inside the 192 samples, the markers
after `calc_vpp_vmid` and `calc_start_end_wave_idx` are `i0 + 1` and `i0 + P`:
their difference is exactly `P - 1`, hence within 1 of `P`. -/
theorem square_wave_period (st : DSO) (P a phase : Nat) (L H : Int)
    (ha : 0 < a) (haP : a < P) (hL0 : 0 ≤ L) (hLH : L < Int.tdiv H 2)
    (hbuf : ∀ k, k < 192 → st.buffer_input_data k = square_wave P a phase L H k)
    (i0 : Nat) (hi0 : (i0 + phase) % P + 1 = a)
    (hleast : ∀ j, j < i0 → (j + phase) % P + 1 ≠ a)
    (hin : i0 + P + 1 < 192) :
    (calc_start_end_wave_idx (calc_vpp_vmid st)).start_wave_idx = i0 + 1 ∧
    (calc_start_end_wave_idx (calc_vpp_vmid st)).end_wave_idx = i0 + P ∧
    ((calc_start_end_wave_idx (calc_vpp_vmid st)).end_wave_idx : Int)
      - ((calc_start_end_wave_idx (calc_vpp_vmid st)).start_wave_idx : Int) = (P : Int) - 1 ∧
    |((calc_start_end_wave_idx (calc_vpp_vmid st)).end_wave_idx : Int)
      - ((calc_start_end_wave_idx (calc_vpp_vmid st)).start_wave_idx : Int) - (P : Int)| ≤ 1 := by
  obtain ⟨-, hs, he⟩ := square_sweep st P a phase L H ha haP hL0 hLH hbuf i0 hi0 hleast hin
  rw [hs, he]
  refine ⟨rfl, rfl, by push_cast; ring, ?_⟩
  have : ((i0 + P : Nat) : Int) - ((i0 + 1 : Nat) : Int) - (P : Int) = -1 := by
    push_cast; ring
  rw [this]
  norm_num

/-- Witness for C5 (amended): period 16, eight samples at 10 then eight at
200, phase 3; the first rising edge is at index 4. -/
theorem square_wave_period_witness :
    (calc_start_end_wave_idx (calc_vpp_vmid
      (sample_input_wave (square_wave 16 8 3 10 200) power_on))).start_wave_idx = 4 + 1 ∧
    (calc_start_end_wave_idx (calc_vpp_vmid
      (sample_input_wave (square_wave 16 8 3 10 200) power_on))).end_wave_idx = 4 + 16 :=
  have h := square_wave_period (sample_input_wave (square_wave 16 8 3 10 200) power_on)
    16 8 3 10 200 (by decide) (by decide) (by decide) (by decide)
    (fun k hk => sample_input_wave_buffer _ _ k hk) 4 (by decide) (by decide) (by decide)
  ⟨h.1, h.2.1⟩

/-- C6: whenever the second scan of `calc_start_end_wave_idx` breaks, at some
index `i`, the markers satisfy `end_wave_idx = i > start_wave_idx`, and
`calc_frequency` then stores the positive value
`8 / ((end_wave_idx - start_wave_idx) * ms_per_div)` (for a positive
`ms_per_div`, as all four settings are). -/
theorem crossing_pair_interval_positive (st : DSO) (i : Nat)
    (hfound : scan (first_scan st).buffer_input_data (first_scan st).V_mid
      (192 - ((first_scan st).start_wave_idx + 1)) ((first_scan st).start_wave_idx + 1)
      = some i)
    (hms : 0 < st.ms_per_div) :
    (calc_start_end_wave_idx st).end_wave_idx = i ∧
    (calc_start_end_wave_idx st).start_wave_idx < (calc_start_end_wave_idx st).end_wave_idx ∧
    (calc_frequency (calc_start_end_wave_idx st)).freq
      = 8 / ((((calc_start_end_wave_idx st).end_wave_idx : Int)
          - ((calc_start_end_wave_idx st).start_wave_idx : Int) : Int) * st.ms_per_div) ∧
    0 < (calc_frequency (calc_start_end_wave_idx st)).freq := by
  obtain ⟨hge, -, -, -⟩ := scan_some _ _ _ _ _ hfound
  have hres : calc_start_end_wave_idx st = { first_scan st with end_wave_idx := i } := by
    simp only [calc_start_end_wave_idx, second_scan, hfound]
  have hend : (calc_start_end_wave_idx st).end_wave_idx = i := by rw [hres]
  have hstart : (calc_start_end_wave_idx st).start_wave_idx
      = (first_scan st).start_wave_idx := by rw [hres]
  have hlt : (calc_start_end_wave_idx st).start_wave_idx
      < (calc_start_end_wave_idx st).end_wave_idx := by
    rw [hend, hstart]; omega
  have hmsd : (calc_start_end_wave_idx st).ms_per_div = st.ms_per_div := by
    obtain ⟨s, e, hse⟩ := calc_start_end_wave_idx_frame st
    rw [hse]
  have hfreq : (calc_frequency (calc_start_end_wave_idx st)).freq
      = 8 / ((((calc_start_end_wave_idx st).end_wave_idx : Int)
          - ((calc_start_end_wave_idx st).start_wave_idx : Int) : Int) * st.ms_per_div) := by
    rw [calc_frequency_freq, if_pos hlt, hmsd]
  refine ⟨hend, hlt, hfreq, ?_⟩
  rw [hfreq]
  have ht : (0 : ℚ) < (((calc_start_end_wave_idx st).end_wave_idx : Int)
      - ((calc_start_end_wave_idx st).start_wave_idx : Int) : Int) := by
    have : (0 : Int) < ((calc_start_end_wave_idx st).end_wave_idx : Int)
        - ((calc_start_end_wave_idx st).start_wave_idx : Int) := by omega
    exact_mod_cast this
  positivity

/-- Witness for C6: on a 16-sample square wave between 0 and 204 with
threshold 102 the second scan breaks at index 23. -/
theorem crossing_pair_interval_positive_witness :
    (calc_start_end_wave_idx (calc_vpp_vmid
      (sample_input_wave (square_wave 16 8 0 0 204) power_on))).end_wave_idx = 23 ∧
    0 < (calc_frequency (calc_start_end_wave_idx (calc_vpp_vmid
      (sample_input_wave (square_wave 16 8 0 0 204) power_on)))).freq :=
  have h := crossing_pair_interval_positive
    (calc_vpp_vmid (sample_input_wave (square_wave 16 8 0 0 204) power_on)) 23
    (by decide) (show (0 : ℚ) < 1 / 2 by norm_num)
  ⟨h.1, h.2.2.2⟩

/-- C7: for a sweep over the 1 kHz, 4 Vpp square wave at `ms_per_div = 0.5`
(period 16 samples: 8 at 0 then 8 at 204, at any starting phase) and any prior
markers, `measure_parameters` yields `freq = 16/15` and `V_pp = 4`, so `freq`
lies in `[0.9, 1.1]` and `V_pp` in `[3.8, 4.2]`. -/
theorem measure_parameters_square_1kHz (st : DSO) (phase : Nat)
    (hbuf : ∀ k, k < 192 → st.buffer_input_data k = square_wave 16 8 phase 0 204 k)
    (hms : st.ms_per_div = 1 / 2) :
    (measure_parameters st).freq = 16 / 15 ∧ (measure_parameters st).V_pp = 4 ∧
    9 / 10 ≤ (measure_parameters st).freq ∧ (measure_parameters st).freq ≤ 11 / 10 ∧
    19 / 5 ≤ (measure_parameters st).V_pp ∧ (measure_parameters st).V_pp ≤ 21 / 5 := by
  obtain ⟨hscan, hs, he⟩ := square_sweep st 16 8 phase 0 204 (by decide) (by decide)
    (by decide) (by decide) hbuf ((23 - phase % 16) % 16) (by omega)
    (fun j hj => by omega) (by omega)
  obtain ⟨-, -, -, hpp, -, -, -, hm⟩ := calc_vpp_vmid_fields st
  obtain ⟨s, e, hse⟩ := calc_start_end_wave_idx_frame (calc_vpp_vmid st)
  have hmsd : (calc_start_end_wave_idx (calc_vpp_vmid st)).ms_per_div = 1 / 2 := by
    rw [hse]
    show (calc_vpp_vmid st).ms_per_div = 1 / 2
    rw [hm, hms]
  have hppd : (calc_start_end_wave_idx (calc_vpp_vmid st)).V_pp = 4 := by
    rw [hse]
    show (calc_vpp_vmid st).V_pp = 4
    rw [hpp, hscan]
    norm_num
  have hf : (measure_parameters st).freq = 16 / 15 := by
    rw [measure_parameters, calc_frequency_freq, hs, he, hmsd, if_pos (by omega)]
    push_cast
    ring_nf
  have hv : (measure_parameters st).V_pp = 4 := by
    rw [measure_parameters, (calc_frequency_frame _).1, hppd]
  refine ⟨hf, hv, ?_, ?_, ?_, ?_⟩
  · rw [hf]; norm_num
  · rw [hf]; norm_num
  · rw [hv]; norm_num
  · rw [hv]; norm_num

/-- Witness for C7: the first sweep after power-on, starting phase 5. -/
theorem measure_parameters_square_1kHz_witness :
    (measure_parameters (sample_input_wave (square_wave 16 8 5 0 204) power_on)).freq
      = 16 / 15 ∧
    (measure_parameters (sample_input_wave (square_wave 16 8 5 0 204) power_on)).V_pp = 4 :=
  have h := measure_parameters_square_1kHz
    (sample_input_wave (square_wave 16 8 5 0 204) power_on) 5
    (fun k hk => sample_input_wave_buffer _ _ k hk) rfl
  ⟨h.1, h.2.1⟩

/-- C8: for every buffer, `calc_vpp_vmid` computes `V_min = min(0, smallest
sample)` and `V_max = max(0, largest sample)`: `V_min` is at most 0 and at most
every sample and is 0 or one of the samples, `V_max` is at least 0 and at least
every sample and is 0 or one of the samples, and the `else if` loses nothing:
the pair equals the one computed by independent running extremes seeded at 0. -/
theorem calc_vpp_vmid_extremes (st : DSO) :
    (calc_vpp_vmid st).V_min ≤ 0 ∧
    (∀ x, x < 192 → (calc_vpp_vmid st).V_min ≤ st.buffer_input_data x) ∧
    ((calc_vpp_vmid st).V_min = 0 ∨
      ∃ x, x < 192 ∧ st.buffer_input_data x = (calc_vpp_vmid st).V_min) ∧
    0 ≤ (calc_vpp_vmid st).V_max ∧
    (∀ x, x < 192 → st.buffer_input_data x ≤ (calc_vpp_vmid st).V_max) ∧
    ((calc_vpp_vmid st).V_max = 0 ∨
      ∃ x, x < 192 ∧ st.buffer_input_data x = (calc_vpp_vmid st).V_max) ∧
    ((calc_vpp_vmid st).V_max, (calc_vpp_vmid st).V_min)
      = extremes_spec st.buffer_input_data 192 := by
  obtain ⟨hmax, hmin, -⟩ := calc_vpp_vmid_fields st
  obtain ⟨h1, h2, h3, h4, h5⟩ := vpp_scan_spec st.buffer_input_data 192
  rw [hmax, hmin]
  refine ⟨h1, fun x hx => (h3 x hx).1, h4, h2, fun x hx => (h3 x hx).2, h5, ?_⟩
  rw [Prod.mk.eta]
  exact vpp_scan_eq_extremes_spec st.buffer_input_data 192

/-- Witness for C8: the sweep over the 16-sample square wave between 0 and
204 has `V_min = 0` and `V_max = 204`, the largest sample. -/
theorem calc_vpp_vmid_extremes_witness :
    (calc_vpp_vmid (sample_input_wave (square_wave 16 8 0 0 204) power_on)).V_min ≤ 0 ∧
    (sample_input_wave (square_wave 16 8 0 0 204) power_on).buffer_input_data 8
      ≤ (calc_vpp_vmid (sample_input_wave (square_wave 16 8 0 0 204) power_on)).V_max :=
  have h := calc_vpp_vmid_extremes (sample_input_wave (square_wave 16 8 0 0 204) power_on)
  ⟨h.1, h.2.2.2.2.1 8 (by decide)⟩

/-- C9: `translate_wave_to_pixels` stores `32 + (V_mid - buffer_input_data[i]) / 4`
(C division) in each of the 96 entries `pixel_loc[0..95]` and writes no other
entry; the result depends on the first 96 samples only; a sample equal to
`V_mid` maps to row 32. -/
theorem translate_wave_to_pixels_rows (st : DSO) :
    (∀ i, i < 96 → (translate_wave_to_pixels st).pixel_loc i
      = 32 + Int.tdiv (st.V_mid - st.buffer_input_data i) 4) ∧
    (∀ i, 96 ≤ i → (translate_wave_to_pixels st).pixel_loc i = st.pixel_loc i) ∧
    (∀ st2 : DSO, st2.V_mid = st.V_mid →
      (∀ i, i < 96 → st2.buffer_input_data i = st.buffer_input_data i) →
      ∀ i, i < 96 → (translate_wave_to_pixels st2).pixel_loc i
        = (translate_wave_to_pixels st).pixel_loc i) ∧
    (∀ i, i < 96 → st.buffer_input_data i = st.V_mid →
      (translate_wave_to_pixels st).pixel_loc i = 32) := by
  have hrow : ∀ (s : DSO) (i : Nat), i < 96 → (translate_wave_to_pixels s).pixel_loc i
      = 32 + Int.tdiv (s.V_mid - s.buffer_input_data i) 4 := by
    intro s i hi
    show pixel_scan s.buffer_input_data s.V_mid s.pixel_loc 96 i = _
    rw [pixel_scan_apply, if_pos hi]
  refine ⟨hrow st, ?_, ?_, ?_⟩
  · intro i hi
    show pixel_scan st.buffer_input_data st.V_mid st.pixel_loc 96 i = _
    rw [pixel_scan_apply, if_neg (by omega)]
  · intro st2 hmid hsame i hi
    rw [hrow st2 i hi, hrow st i hi, hmid, hsame i hi]
  · intro i hi heq
    rw [hrow st i hi, heq, sub_self]
    rfl

/-- Witness for C9: the rows of a sweep over the 16-sample square wave between
0 and 204 with `V_mid = 102`; column 0 is at row `32 + 102 / 4 = 57`, column 8
at row `32 + (-102) / 4 = 7`, and entry 96 is not written. -/
theorem translate_wave_to_pixels_rows_witness :
    (translate_wave_to_pixels (calc_vpp_vmid
      (sample_input_wave (square_wave 16 8 0 0 204) power_on))).pixel_loc 0 = 57 ∧
    (translate_wave_to_pixels (calc_vpp_vmid
      (sample_input_wave (square_wave 16 8 0 0 204) power_on))).pixel_loc 8 = 7 ∧
    (translate_wave_to_pixels (calc_vpp_vmid
      (sample_input_wave (square_wave 16 8 0 0 204) power_on))).pixel_loc 96 = 0 :=
  have h := translate_wave_to_pixels_rows
    (calc_vpp_vmid (sample_input_wave (square_wave 16 8 0 0 204) power_on))
  ⟨(h.1 0 (by decide)).trans (by decide), (h.1 8 (by decide)).trans (by decide),
    (h.2.1 96 (by decide)).trans rfl⟩

/-- C10: the pixel mapping inverts the vertical sense monotonically: for every
`V_mid` and columns `i, j < 96`, if `buffer_input_data[i] ≥ buffer_input_data[j]`
then `pixel_loc[i] ≤ pixel_loc[j]`. -/
theorem translate_wave_to_pixels_antitone (st : DSO) (i j : Nat) (hi : i < 96) (hj : j < 96)
    (h : st.buffer_input_data i ≥ st.buffer_input_data j) :
    (translate_wave_to_pixels st).pixel_loc i ≤ (translate_wave_to_pixels st).pixel_loc j := by
  show pixel_scan st.buffer_input_data st.V_mid st.pixel_loc 96 i
    ≤ pixel_scan st.buffer_input_data st.V_mid st.pixel_loc 96 j
  rw [pixel_scan_apply, pixel_scan_apply, if_pos hi, if_pos hj]
  have := tdiv_four_mono (st.V_mid - st.buffer_input_data i)
    (st.V_mid - st.buffer_input_data j) (by omega)
  omega

/-- Witness for C10: columns 8 (sample 204) and 0 (sample 0) of the square-wave
sweep. -/
theorem translate_wave_to_pixels_antitone_witness :
    (translate_wave_to_pixels (calc_vpp_vmid
      (sample_input_wave (square_wave 16 8 0 0 204) power_on))).pixel_loc 8
    ≤ (translate_wave_to_pixels (calc_vpp_vmid
      (sample_input_wave (square_wave 16 8 0 0 204) power_on))).pixel_loc 0 :=
  translate_wave_to_pixels_antitone
    (calc_vpp_vmid (sample_input_wave (square_wave 16 8 0 0 204) power_on)) 8 0
    (by decide) (by decide) (by decide)

/-- C11: wrap behaviour of the time-per-division steps `0.5, 1.0, 1.5, 2.0`:
scale-up at 2.0 yields 0.5, scale-down at 0.5 yields 0.5 again, and at every
other setting scale-up adds 0.5 and scale-down subtracts 0.5. -/
theorem ms_per_div_step_and_wrap (st : DSO) :
    (st.ms_per_div = 2 → (div_add_sw_pin_int_vect st).ms_per_div = 1 / 2) ∧
    (st.ms_per_div = 1 / 2 → (div_sub_sw_pin_int_vect st).ms_per_div = 1 / 2) ∧
    (st.ms_per_div = 1 / 2 ∨ st.ms_per_div = 1 ∨ st.ms_per_div = 3 / 2 →
      (div_add_sw_pin_int_vect st).ms_per_div = st.ms_per_div + 1 / 2) ∧
    (st.ms_per_div = 1 ∨ st.ms_per_div = 3 / 2 ∨ st.ms_per_div = 2 →
      (div_sub_sw_pin_int_vect st).ms_per_div = st.ms_per_div - 1 / 2) := by
  refine ⟨?_, ?_, ?_, ?_⟩
  · intro h
    rw [div_add_ms_per_div, h]
    norm_num
  · intro h
    rw [div_sub_ms_per_div, h]
    norm_num
  · intro h
    rw [div_add_ms_per_div]
    rcases h with h | h | h <;> rw [h] <;> norm_num
  · intro h
    rw [div_sub_ms_per_div]
    rcases h with h | h | h <;> rw [h] <;> norm_num

/-- Witness for C11: at the power-on setting 0.5 scale-down stays at 0.5 and
scale-up gives 1.0. -/
theorem ms_per_div_step_and_wrap_witness :
    (div_sub_sw_pin_int_vect power_on).ms_per_div = 1 / 2 ∧
    (div_add_sw_pin_int_vect power_on).ms_per_div = power_on.ms_per_div + 1 / 2 :=
  have h := ms_per_div_step_and_wrap power_on
  ⟨h.2.1 rfl, h.2.2.1 (Or.inl rfl)⟩

/-- C12: the vertical offset is a reset-on-overflow counter: started at 0 it
stays within `-31..31` under every sequence of switch interrupts; the up
handler at -31 and the down handler at 31 set it to 0; at every other value of
the range the up handler subtracts 1 and the down handler adds 1. -/
theorem vert_disp_reset_on_overflow (st : DSO) (evs : List SwitchEvent) :
    (st.vert_disp = 0 →
      -31 ≤ (run_events st evs).vert_disp ∧ (run_events st evs).vert_disp ≤ 31) ∧
    (st.vert_disp = -31 → (up_sw_pin_int_vect st).vert_disp = 0) ∧
    (st.vert_disp = 31 → (down_sw_pin_int_vect st).vert_disp = 0) ∧
    (-31 < st.vert_disp → (up_sw_pin_int_vect st).vert_disp = st.vert_disp - 1) ∧
    (st.vert_disp < 31 → (down_sw_pin_int_vect st).vert_disp = st.vert_disp + 1) := by
  refine ⟨?_, ?_, ?_, ?_, ?_⟩
  · intro h
    exact run_events_vert_disp_range st evs (by rw [h]; decide)
  · intro h
    rw [up_vert_disp, h]
    rfl
  · intro h
    rw [down_vert_disp, h]
    rfl
  · intro h
    rw [up_vert_disp, if_neg (by omega)]
  · intro h
    rw [down_vert_disp, if_neg (by omega)]

/-- Witness for C12: from power-on, a few offset interrupts. -/
theorem vert_disp_reset_on_overflow_witness :
    (-31 ≤ (run_events power_on
        [SwitchEvent.up, SwitchEvent.up, SwitchEvent.down]).vert_disp ∧
      (run_events power_on
        [SwitchEvent.up, SwitchEvent.up, SwitchEvent.down]).vert_disp ≤ 31) ∧
    (up_sw_pin_int_vect power_on).vert_disp = power_on.vert_disp - 1 :=
  have h := vert_disp_reset_on_overflow power_on
    [SwitchEvent.up, SwitchEvent.up, SwitchEvent.down]
  ⟨h.1 rfl, h.2.2.2.1 (by decide)⟩

/-- C13: when no index `0..190` is a rising crossing and `sample[191] ≥ V_mid`,
`calc_start_end_wave_idx` leaves both markers at their previous values,
whatever these are; indeed it changes nothing at all. -/
theorem calc_start_end_wave_idx_no_crossing (st : DSO)
    (hno : ∀ i, i ≤ 190 →
      ¬ (st.buffer_input_data i < st.V_mid ∧ st.buffer_input_data (i + 1) ≥ st.V_mid))
    (hlast : st.buffer_input_data 191 ≥ st.V_mid) :
    (calc_start_end_wave_idx st).start_wave_idx = st.start_wave_idx ∧
    (calc_start_end_wave_idx st).end_wave_idx = st.end_wave_idx ∧
    calc_start_end_wave_idx st = st := by
  have hnot : ∀ j, j < 192 → rising st.buffer_input_data st.V_mid j = false := by
    intro j hj
    have hn : ¬ (st.buffer_input_data j < st.V_mid ∧ st.buffer_input_data (j + 1) ≥ st.V_mid) := by
      rcases Nat.lt_or_ge j 191 with h | h
      · exact hno j (by omega)
      · have : j = 191 := by omega
        subst this
        intro hc
        omega
    have := (rising_iff st.buffer_input_data st.V_mid j).not.mpr hn
    simpa using this
  have hkeep : calc_start_end_wave_idx st = st :=
    markers_of_no_crossing st
      (scan_none _ _ _ _ (fun j _ hj => hnot j (by omega)))
      (scan_none _ _ _ _ (fun j _ hj => hnot j (by omega)))
  exact ⟨by rw [hkeep], by rw [hkeep], hkeep⟩

/-- Witness for C13: a flat buffer at level 100 with threshold 0. -/
theorem calc_start_end_wave_idx_no_crossing_witness :
    (calc_start_end_wave_idx
      (sample_input_wave (flat_buffer 100) power_on)).start_wave_idx = 0 ∧
    (calc_start_end_wave_idx
      (sample_input_wave (flat_buffer 100) power_on)).end_wave_idx = 0 :=
  have h := calc_start_end_wave_idx_no_crossing
    (sample_input_wave (flat_buffer 100) power_on) (by decide) (by decide)
  ⟨h.1, h.2.1⟩

/-- C14: when the first scan breaks at `i1` and `i2 ≤ 190` is the least index
above `i1` that is a rising crossing, `start_wave_idx = i1 + 1` and
`end_wave_idx = i2`: starting the second scan at `start_wave_idx + 1` skips no
rising crossing, and the value stored is the below-threshold index of the next
crossing. -/
theorem calc_start_end_wave_idx_second_crossing (st : DSO) (i1 i2 : Nat)
    (h1 : scan st.buffer_input_data st.V_mid 192 0 = some i1)
    (hlt : i1 < i2) (hi2 : i2 ≤ 190)
    (hlo : st.buffer_input_data i2 < st.V_mid)
    (hhi : st.buffer_input_data (i2 + 1) ≥ st.V_mid)
    (hleast : ∀ j, i1 < j → j < i2 →
      ¬ (st.buffer_input_data j < st.V_mid ∧ st.buffer_input_data (j + 1) ≥ st.V_mid)) :
    (calc_start_end_wave_idx st).start_wave_idx = i1 + 1 ∧
    (calc_start_end_wave_idx st).end_wave_idx = i2 := by
  obtain ⟨-, -, hr1, -⟩ := scan_some _ _ _ _ _ h1
  have hnext := ((rising_iff _ _ _).mp hr1).2
  have hne : i2 ≠ i1 + 1 := by
    intro h
    rw [h] at hlo
    omega
  have h2 : scan st.buffer_input_data st.V_mid (192 - (i1 + 1 + 1)) (i1 + 1 + 1) = some i2 := by
    refine scan_first _ _ _ _ i2 (by omega) (by omega)
      ((rising_iff _ _ _).mpr ⟨hlo, hhi⟩) ?_
    intro j hj1 hj2
    have := (rising_iff st.buffer_input_data st.V_mid j).not.mpr (hleast j (by omega) hj2)
    simpa using this
  exact markers_of_scans st i1 i2 h1 h2

/-- Witness for C14: the square-wave sweep with crossings at 7 and 23. -/
theorem calc_start_end_wave_idx_second_crossing_witness :
    (calc_start_end_wave_idx (calc_vpp_vmid
      (sample_input_wave (square_wave 16 8 0 0 204) power_on))).start_wave_idx = 7 + 1 ∧
    (calc_start_end_wave_idx (calc_vpp_vmid
      (sample_input_wave (square_wave 16 8 0 0 204) power_on))).end_wave_idx = 23 :=
  calc_start_end_wave_idx_second_crossing
    (calc_vpp_vmid (sample_input_wave (square_wave 16 8 0 0 204) power_on)) 7 23
    (by decide) (by decide) (by decide) (by decide) (by decide)
    (by intro j hj1 hj2; interval_cases j <;> decide)

/-- C15: for every buffer whose 192 samples lie in `0..255`, after
`calc_vpp_vmid` and `translate_wave_to_pixels` every row `pixel_loc[i]`,
`i = 0..95`, lies in the display row range `0..63`. -/
theorem pixel_rows_in_display_range (st : DSO)
    (hrange : ∀ k, k < 192 → 0 ≤ st.buffer_input_data k ∧ st.buffer_input_data k ≤ 255)
    (i : Nat) (hi : i < 96) :
    0 ≤ (translate_wave_to_pixels (calc_vpp_vmid st)).pixel_loc i ∧
    (translate_wave_to_pixels (calc_vpp_vmid st)).pixel_loc i ≤ 63 := by
  obtain ⟨-, -, hmid, -, hb, -⟩ := calc_vpp_vmid_fields st
  obtain ⟨h1, h2, h3, h4, h5⟩ := vpp_scan_spec st.buffer_input_data 192
  have hi192 : i < 192 := by omega
  have hs := hrange i hi192
  have hbound := h3 i hi192
  have hmin : (vpp_scan st.buffer_input_data 192).2 = 0 := by
    rcases h4 with h | ⟨x, hx, hbx⟩
    · exact h
    · have := hrange x hx
      omega
  have hmax : (vpp_scan st.buffer_input_data 192).1 ≤ 255 := by
    rcases h5 with h | ⟨x, hx, hbx⟩
    · omega
    · have := hrange x hx
      omega
  rw [translate_pixel_loc _ i hi, hmid, hb, hmin, add_zero, tdiv_two_nonneg _ h2, tdiv_four]
  split_ifs <;> omega

/-- Witness for C15: column 8 of the sweep over the 16-sample square wave
between 0 and 204. -/
theorem pixel_rows_in_display_range_witness :
    0 ≤ (translate_wave_to_pixels (calc_vpp_vmid
      (sample_input_wave (square_wave 16 8 0 0 204) power_on))).pixel_loc 8 ∧
    (translate_wave_to_pixels (calc_vpp_vmid
      (sample_input_wave (square_wave 16 8 0 0 204) power_on))).pixel_loc 8 ≤ 63 :=
  pixel_rows_in_display_range (sample_input_wave (square_wave 16 8 0 0 204) power_on)
    (fun k hk => by
      rw [sample_input_wave_buffer _ _ k hk]
      unfold square_wave
      split_ifs <;> decide)
    8 (by decide)

/-- C16: the pixel mapping is symmetric about row 32: for every `V_mid` and
`d ≥ 0`, a sample `V_mid + d` and a sample `V_mid - d` map to rows whose sum is
64, so they lie equally far above and below row 32. -/
theorem pixel_rows_symmetric (st : DSO) (d : Int) (hd : 0 ≤ d) (i j : Nat)
    (hi : i < 96) (hj : j < 96)
    (hbi : st.buffer_input_data i = st.V_mid + d)
    (hbj : st.buffer_input_data j = st.V_mid - d) :
    (translate_wave_to_pixels st).pixel_loc i + (translate_wave_to_pixels st).pixel_loc j = 64 ∧
    32 - (translate_wave_to_pixels st).pixel_loc i
      = (translate_wave_to_pixels st).pixel_loc j - 32 ∧
    (translate_wave_to_pixels st).pixel_loc i = 32 - d / 4 := by
  have e1 : st.V_mid - (st.V_mid + d) = -d := by ring
  have e2 : st.V_mid - (st.V_mid - d) = d := by ring
  rw [translate_pixel_loc st i hi, translate_pixel_loc st j hj, hbi, hbj, e1, e2,
    Int.neg_tdiv, Int.tdiv_eq_ediv hd (by norm_num)]
  refine ⟨by omega, by omega, by omega⟩

/-- Witness for C16: columns 8 (sample 204) and 0 (sample 0) of the square-wave
sweep, with `V_mid = 102` and `d = 102`. -/
theorem pixel_rows_symmetric_witness :
    (translate_wave_to_pixels (calc_vpp_vmid
      (sample_input_wave (square_wave 16 8 0 0 204) power_on))).pixel_loc 8
    + (translate_wave_to_pixels (calc_vpp_vmid
      (sample_input_wave (square_wave 16 8 0 0 204) power_on))).pixel_loc 0 = 64 :=
  (pixel_rows_symmetric
    (calc_vpp_vmid (sample_input_wave (square_wave 16 8 0 0 204) power_on)) 102
    (by decide) 8 0 (by decide) (by decide) (by decide) (by decide)).1

/-- C17: `calc_start_end_wave_idx` reads `buffer_input_data[192]` if and only
if `buffer_input_data[191] < V_mid` and one of its scans gets to `i = 191`,
which, given the first condition, is to say that indices `0..190` hold fewer
than two rising crossings; and there is a buffer of samples in `0..255` for
which the read happens. -/
theorem calc_start_end_wave_idx_reads_past_end (st : DSO) :
    (192 ∈ calc_start_end_wave_idx_reads st ↔
      st.buffer_input_data 191 < st.V_mid ∧ 191 ∈ calc_start_end_wave_idx_visits st) ∧
    (192 ∈ calc_start_end_wave_idx_reads st ↔
      st.buffer_input_data 191 < st.V_mid ∧
      ¬ ∃ i j, i < j ∧ j ≤ 190 ∧
        (st.buffer_input_data i < st.V_mid ∧ st.buffer_input_data (i + 1) ≥ st.V_mid) ∧
        (st.buffer_input_data j < st.V_mid ∧ st.buffer_input_data (j + 1) ≥ st.V_mid)) ∧
    (∃ adc : Nat → Int, (∀ k, 0 ≤ adc k ∧ adc k ≤ 255) ∧
      192 ∈ calc_start_end_wave_idx_reads (calc_vpp_vmid (sample_input_wave adc power_on))) := by
  refine ⟨?_, ?_, ?_⟩
  · rw [reads_past_end_iff, visits_last_iff]
  · rw [reads_past_end_iff]
    simp only [← rising_iff]
    constructor
    · rintro ⟨ha, hp⟩
      exact ⟨ha, (reaches_last_iff_fewer_than_two st ha).mp hp⟩
    · rintro ⟨ha, hq⟩
      exact ⟨ha, (reaches_last_iff_fewer_than_two st ha).mpr hq⟩
  · refine ⟨final_drop, ?_, by decide⟩
    intro k
    unfold final_drop
    split_ifs <;> decide

/-- Witness for C17: a sweep at 200 whose last sample drops to 0 has threshold
100, no rising crossing, and `buffer_input_data[191] = 0 < 100`; the first scan
reads index 192. -/
theorem calc_start_end_wave_idx_reads_past_end_witness :
    192 ∈ calc_start_end_wave_idx_reads
      (calc_vpp_vmid (sample_input_wave final_drop power_on)) :=
  (calc_start_end_wave_idx_reads_past_end
    (calc_vpp_vmid (sample_input_wave final_drop power_on))).1.mpr
    ⟨by decide, by decide⟩

/-- C18: `draw_waveform` makes 96 `drawLine` calls, the one for column `x`
joining `vert_disp + pixel_loc[x]` to `vert_disp + pixel_loc[x+1]`; the call
for `x = 95` uses `pixel_loc[96]`, so index 96, outside the 96-entry table, is
read on every sweep, and `translate_wave_to_pixels` never writes it: after the
translation the last segment still ends at the old word behind the table. -/
theorem draw_waveform_reads_beyond_table (st : DSO) :
    (draw_waveform st).length = 96 ∧
    (∀ x, x < 96 →
      (Int.ofNat x, st.vert_disp + st.pixel_loc x, Int.ofNat x,
        st.vert_disp + st.pixel_loc (x + 1)) ∈ draw_waveform st) ∧
    ((95 : Int), st.vert_disp + st.pixel_loc 95, (95 : Int),
      st.vert_disp + st.pixel_loc 96) ∈ draw_waveform st ∧
    96 ∈ draw_waveform_reads ∧
    (∀ k ∈ draw_waveform_reads, k ≤ 96) ∧
    (translate_wave_to_pixels st).pixel_loc 96 = st.pixel_loc 96 ∧
    ((95 : Int), st.vert_disp + (32 + Int.tdiv (st.V_mid - st.buffer_input_data 95) 4),
      (95 : Int), st.vert_disp + st.pixel_loc 96)
      ∈ draw_waveform (translate_wave_to_pixels st) := by
  have hmem : ∀ (s : DSO) (x : Nat), x < 96 →
      (Int.ofNat x, s.vert_disp + s.pixel_loc x, Int.ofNat x,
        s.vert_disp + s.pixel_loc (x + 1)) ∈ draw_waveform s := by
    intro s x hx
    unfold draw_waveform
    exact List.mem_map.mpr ⟨x, List.mem_range.mpr hx, rfl⟩
  refine ⟨by simp [draw_waveform], hmem st, hmem st 95 (by decide), by decide, by decide,
    translate_pixel_loc_beyond st 96 (le_refl 96), ?_⟩
  have h := hmem (translate_wave_to_pixels st) 95 (by decide)
  rw [translate_pixel_loc st 95 (by decide),
    translate_pixel_loc_beyond st (95 + 1) (by decide)] at h
  exact h

/-- Witness for C18: the last segment drawn after a sweep from power-on over
the square wave ends at the untouched word `pixel_loc[96] = 0`. -/
theorem draw_waveform_reads_beyond_table_witness :
    (translate_wave_to_pixels (calc_vpp_vmid
      (sample_input_wave (square_wave 16 8 0 0 204) power_on))).pixel_loc 96 = 0 ∧
    96 ∈ draw_waveform_reads :=
  have h := draw_waveform_reads_beyond_table
    (calc_vpp_vmid (sample_input_wave (square_wave 16 8 0 0 204) power_on))
  ⟨h.2.2.2.2.2.1.trans rfl, h.2.2.2.1⟩

/-- C19: started at `ms_per_div = 0.5`, after every finite sequence of switch
interrupts `ms_per_div` is one of `0.5, 1.0, 1.5, 2.0`, and the delay lookup of
`sample_input_wave` selects 60, 110, 160 or 210 microseconds respectively: no
case falls through without a delay.  Each of the four settings is reached. -/
theorem ms_per_div_reachable_settings (st : DSO) (evs : List SwitchEvent)
    (h0 : st.ms_per_div = 1 / 2) :
    (((run_events st evs).ms_per_div = 1 / 2 ∧
        sample_delay_us (run_events st evs).ms_per_div = some 60) ∨
      ((run_events st evs).ms_per_div = 1 ∧
        sample_delay_us (run_events st evs).ms_per_div = some 110) ∨
      ((run_events st evs).ms_per_div = 3 / 2 ∧
        sample_delay_us (run_events st evs).ms_per_div = some 160) ∨
      ((run_events st evs).ms_per_div = 2 ∧
        sample_delay_us (run_events st evs).ms_per_div = some 210)) ∧
    (run_events st []).ms_per_div = 1 / 2 ∧
    (run_events st [SwitchEvent.div_add]).ms_per_div = 1 ∧
    (run_events st [SwitchEvent.div_add, SwitchEvent.div_add]).ms_per_div = 3 / 2 ∧
    (run_events st [SwitchEvent.div_add, SwitchEvent.div_add,
      SwitchEvent.div_add]).ms_per_div = 2 := by
  obtain ⟨d1, d2, d3, d4⟩ := sample_delay_us_settings
  have h1 : (div_add_sw_pin_int_vect st).ms_per_div = 1 := by
    rw [div_add_ms_per_div, h0]; norm_num
  have h2 : (div_add_sw_pin_int_vect (div_add_sw_pin_int_vect st)).ms_per_div = 3 / 2 := by
    rw [div_add_ms_per_div, h1]; norm_num
  have h3 : (div_add_sw_pin_int_vect (div_add_sw_pin_int_vect
      (div_add_sw_pin_int_vect st))).ms_per_div = 2 := by
    rw [div_add_ms_per_div, h2]; norm_num
  refine ⟨?_, h0, h1, h2, h3⟩
  rcases run_events_ms_per_div_setting st evs (Or.inl h0) with h | h | h | h
  · exact Or.inl ⟨h, by rw [h]; exact d1⟩
  · exact Or.inr (Or.inl ⟨h, by rw [h]; exact d2⟩)
  · exact Or.inr (Or.inr (Or.inl ⟨h, by rw [h]; exact d3⟩))
  · exact Or.inr (Or.inr (Or.inr ⟨h, by rw [h]; exact d4⟩))

/-- Witness for C19: from power-on, two scale-ups give the setting 1.5 and
three give 2.0. -/
theorem ms_per_div_reachable_settings_witness :
    (run_events power_on [SwitchEvent.div_add, SwitchEvent.div_add]).ms_per_div = 3 / 2 ∧
    (run_events power_on [SwitchEvent.div_add, SwitchEvent.div_add,
      SwitchEvent.div_add]).ms_per_div = 2 :=
  have h := ms_per_div_reachable_settings power_on
    [SwitchEvent.div_sub, SwitchEvent.div_add] rfl
  ⟨h.2.2.2.1, h.2.2.2.2⟩

/-- C20, evaluation of the code: for every pin position `0..7` and every
sequence of values of the pin register, also one whose switch bit reads 0 for
ever (switch held down), the wait-loop condition of the hold handler is false
at every evaluation, the loop is left at the first one and the handler returns
with `hold_flag = 0`.  With the register at 0 the switch bit reads 0, so the
condition described by the handler's comment would hold. -/
theorem hold_sw_pin_int_vect_does_not_wait (pin : Fin 8) (reg : Nat → Nat) (fuel : Nat)
    (st : DSO) :
    (∀ k, hold_wait_condition (reg k) pin.val = false) ∧
    (hold_sw_pin_int_vect pin.val reg (fuel + 1) st).map (fun r => (r.1.hold_flag, r.2))
      = some (0, 0) ∧
    hold_switch_pressed 0 pin.val = true ∧
    hold_wait_condition 0 pin.val = false := by
  refine ⟨fun k => hold_wait_condition_false _ _, ?_, ?_, hold_wait_condition_false _ _⟩
  · simp only [hold_sw_pin_int_vect, hold_wait_first]
    rfl
  · simp [hold_switch_pressed]

end Oscilloscope
